import Mathlib

/-!
Shallow embedding of the `rusty-map` repository (`src/main.rs`): a fixed-slot,
open-addressing hash map with linear probing, resize-on-half-load, djb2 string
hashing and a slot-order iterator.

Modelling conventions:
* Rust `usize` arithmetic is modelled on `Nat` with explicit `% 2 ^ 64`
  wherever wrap-on-overflow matters (only the djb2 hash); indices and counters
  never approach `2 ^ 64` in the algorithms themselves.
* Rust's `%` panics on a zero divisor; `rustMod` returns `none` for that panic,
  and every table operation that hashes a key is `Option`-valued, `none`
  modelling the "attempt to calculate the remainder with a divisor of zero"
  abort.
* `Vec<Entry<K, V>>` is a `List (Entry K V)`; `self.entries[i]` is `entAt`,
  total via `List.getD` with the `Default` entry (the Rust bounds are always
  respected, and an out-of-range `entAt` yields an unoccupied entry).
* `insert` recurses into `extend`, which re-inserts through `insert` itself.
  The recursion is bounded: a table freshly allocated by `extend` stays below
  its load threshold while the old entries are re-inserted, so the nesting
  depth is at most one.  `insertF` makes that depth explicit as fuel and
  `insert` runs it with fuel 1; the fuel-exhaustion branch is proven
  unreachable (`extendGoF_budget`, `insertF_step` and `insert_spec`).
-/

set_option autoImplicit false
set_option maxHeartbeats 1000000
set_option linter.unusedVariables false
set_option linter.unusedSectionVars false

namespace RustyMap

/-- Rust: `struct Entry<Key, Value> { occupied: bool, key: Key, value: Value }`. -/
structure Entry (K V : Type) where
  occupied : Bool
  key : K
  value : V
  deriving Repr, DecidableEq

/-- Rust's `#[derive(Default)]` for `Entry`: unoccupied, default key and value. -/
instance {K V : Type} [Inhabited K] [Inhabited V] : Inhabited (Entry K V) :=
  ⟨⟨false, default, default⟩⟩

/-- Rust: `struct HashMap<K, V> { entries: Vec<Entry<K, V>>, occupied: usize }`. -/
structure HashMap (K V : Type) where
  entries : List (Entry K V)
  occupied : Nat
  deriving Repr, DecidableEq

/-- Rust `a % b` on `usize`: panics (modelled as `none`) when `b = 0`. -/
def rustMod (a b : Nat) : Option Nat :=
  if b = 0 then none else some (a % b)

/-- Word size of the modelled target (64-bit `usize`). -/
def usizeSize : Nat := 2 ^ 64

/-- One step of the djb2 loop of `impl Hashable for String`:
`hash = (hash << 5).wrapping_add(hash) + byte as usize`.  The shift discards
high bits, `wrapping_add` wraps, and the final `+` wraps in release mode. -/
def stringHashStep (h b : Nat) : Nat :=
  (((h <<< 5) % usizeSize + h) % usizeSize + b) % usizeSize

/-- Rust: `impl Hashable for String`, the djb2 loop over `self.bytes()`
(the UTF-8 bytes of the string, modelled as a list of byte values). -/
def stringHash (bytes : List Nat) : Nat :=
  bytes.foldl stringHashStep 5381

/-- One step of the djb2 loop of `impl Hashable for &str` (textually the same
code as the `String` instance). -/
def strHashStep (h b : Nat) : Nat :=
  (((h <<< 5) % usizeSize + h) % usizeSize + b) % usizeSize

/-- Rust: `impl Hashable for &str`, the djb2 loop over `self.bytes()`. -/
def strHash (bytes : List Nat) : Nat :=
  bytes.foldl strHashStep 5381

/-- Rust: `impl Hashable for usize { fn hash(&self) -> usize { *self } }`. -/
def usizeHash (n : Nat) : Nat := n

variable {K V : Type}

/-- Rust `self.entries[index]`.  Total: out of range it returns the default
(unoccupied) entry; all Rust accesses are in range. -/
def entAt [Inhabited K] [Inhabited V] (entries : List (Entry K V)) (i : Nat) : Entry K V :=
  entries.getD i default

/-- Occupancy of slot `i` (of the default entry when out of range). -/
def occB [Inhabited K] [Inhabited V] (entries : List (Entry K V)) (i : Nat) : Bool :=
  (entAt entries i).occupied

/-- Key stored at slot `i`. -/
def keyAt [Inhabited K] [Inhabited V] (entries : List (Entry K V)) (i : Nat) : K :=
  (entAt entries i).key

/-- Rust `HashMap::with_capacity(capacity)`: `capacity` default entries, zero
occupied. -/
def HashMap.withCapacity (K V : Type) [Inhabited K] [Inhabited V] (capacity : Nat) :
    HashMap K V :=
  ⟨List.replicate capacity default, 0⟩

/-- Rust `HashMap::new()`: `with_capacity(64)` (`INITIAL_CAPACITY`). -/
def HashMap.new (K V : Type) [Inhabited K] [Inhabited V] : HashMap K V :=
  HashMap.withCapacity K V 64

/-- Rust `HashMap::empty()`: no slots at all. -/
def HashMap.empty (K V : Type) : HashMap K V :=
  ⟨[], 0⟩

/-- Rust `HashMap::capacity()`: the allocated slot count (the `Vec` is always
allocated at exactly its length here; it is never pushed to). -/
def HashMap.capacity (m : HashMap K V) : Nat :=
  m.entries.length

/-- Rust `HashMap::len()`: the occupied counter. -/
def HashMap.len (m : HashMap K V) : Nat :=
  m.occupied

/-- Rust `HashMap::is_empty()`. -/
def HashMap.isEmpty (m : HashMap K V) : Bool :=
  m.occupied == 0

/-- The probing loop of `get_index` (lines 206-214): up to `fuel` steps; stop
at the first unoccupied slot or the first occupied slot holding `k`, else step
to `(index + 1) % len`.  Returns the index the loop left behind. -/
def getIndexGo [Inhabited K] [Inhabited V] [DecidableEq K]
    (entries : List (Entry K V)) (k : K) : Nat → Nat → Nat
  | 0, index => index
  | fuel + 1, index =>
    if ¬ (entAt entries index).occupied then index
    else if (entAt entries index).key = k then index
    else getIndexGo entries k fuel ((index + 1) % entries.length)

/-- Rust `HashMap::get_index(&key)`.  Outer `none` is the `% 0` panic; inner
option is Rust's `Option<usize>` result. -/
def HashMap.get_index [Inhabited K] [Inhabited V] [DecidableEq K]
    (hash : K → Nat) (m : HashMap K V) (k : K) : Option (Option Nat) :=
  match rustMod (hash k) m.entries.length with
  | none => none
  | some start =>
    let stop := getIndexGo m.entries k m.entries.length start
    some (if (entAt m.entries stop).occupied ∧ (entAt m.entries stop).key = k
          then some stop else none)

/-- Rust `HashMap::get(&key)`: the value at `get_index`, if any. -/
def HashMap.get [Inhabited K] [Inhabited V] [DecidableEq K]
    (hash : K → Nat) (m : HashMap K V) (k : K) : Option (Option V) :=
  (HashMap.get_index hash m k).map (fun r => r.map (fun i => (entAt m.entries i).value))

/-- Rust `HashMap::get_mut(&key)`: same lookup as `get`; the returned mutable
borrow exposes the same value. -/
def HashMap.get_mut [Inhabited K] [Inhabited V] [DecidableEq K]
    (hash : K → Nat) (m : HashMap K V) (k : K) : Option (Option V) :=
  (HashMap.get_index hash m k).map (fun r => r.map (fun i => (entAt m.entries i).value))

/-- Rust `*old = new_value` after a successful `get_mut` in `insert`: only the
value of slot `i` changes. -/
def overwriteAt [Inhabited K] [Inhabited V] (m : HashMap K V) (i : Nat) (v : V) :
    HashMap K V :=
  ⟨m.entries.set i { entAt m.entries i with value := v }, m.occupied⟩

/-- The probing loop of the fresh-insert branch (lines 230-239): up to `fuel`
steps; claim the first unoccupied slot with `⟨true, k, v⟩`.  The flag reports
whether a slot was claimed (`self.occupied += 1` ran). -/
def placeGo [Inhabited K] [Inhabited V] (k : K) (v : V) (entries : List (Entry K V)) :
    Nat → Nat → List (Entry K V) × Bool
  | 0, _ => (entries, false)
  | fuel + 1, index =>
    if ¬ (entAt entries index).occupied then
      (entries.set index ⟨true, k, v⟩, true)
    else
      placeGo k v entries fuel ((index + 1) % entries.length)

/-- Lines 229-239 of `insert`: probe from `key.hash() % self.entries.len()`
for a free slot and bump the counter if one was claimed. -/
def placeAt [Inhabited K] [Inhabited V] (hash : K → Nat) (m : HashMap K V)
    (k : K) (v : V) : HashMap K V :=
  let start := hash k % m.entries.length
  let pr := placeGo k v m.entries m.entries.length start
  ⟨pr.1, if pr.2 then m.occupied + 1 else m.occupied⟩

/-- The loop of Rust `HashMap::extend`, parameterized over the insert routine
it re-enters (`ins` is `insert` at the remaining recursion depth): re-insert
every occupied entry of the old table into `acc` through `ins`. -/
def extendGoF [Inhabited K] [Inhabited V] (ins : HashMap K V → K → V → Option (HashMap K V)) :
    List (Entry K V) → HashMap K V → Option (HashMap K V)
  | [], acc => some acc
  | e :: rest, acc =>
    if e.occupied then
      match ins acc e.key e.value with
      | none => none
      | some acc' => extendGoF ins rest acc'
    else
      extendGoF ins rest acc

/-- Rust `HashMap::insert(key, new_value)` with explicit recursion fuel for
the `insert`/`extend` mutual recursion; `none` models the `% 0` panic (and
the fuel-exhaustion case, which is proven unreachable for fuel 1).  The two
arms transcribe the same Rust body and differ only in whether `extend` may
still be entered; `insertF_eq` restates them as the single Rust body. -/
def insertF [Inhabited K] [Inhabited V] [DecidableEq K] (hash : K → Nat) :
    Nat → HashMap K V → K → V → Option (HashMap K V)
  | 0, m, k, v =>
    match HashMap.get_index hash m k with
    | none => none
    | some (some i) => some (overwriteAt m i v)
    | some none =>
      if m.entries.length / 2 ≤ m.occupied then
        none
      else some (placeAt hash m k v)
  | fuel' + 1, m, k, v =>
    match HashMap.get_index hash m k with
    | none => none
    | some (some i) => some (overwriteAt m i v)
    | some none =>
      if m.entries.length / 2 ≤ m.occupied then
        (extendGoF (fun acc k' v' => insertF hash fuel' acc k' v') m.entries
            (HashMap.withCapacity K V (m.entries.length * 2 + 1))).map
          (fun m1 => placeAt hash m1 k v)
      else some (placeAt hash m k v)

/-- The loop of Rust `HashMap::extend` at a given recursion depth. -/
def extendGo [Inhabited K] [Inhabited V] [DecidableEq K] (hash : K → Nat)
    (fuel : Nat) : List (Entry K V) → HashMap K V → Option (HashMap K V) :=
  extendGoF (fun acc k' v' => insertF hash fuel acc k' v')

/-- Rust `HashMap::insert`.  Fuel 1 suffices: `extend` never re-triggers a
resize while re-inserting (see `extendGoF_budget`). -/
def HashMap.insert [Inhabited K] [Inhabited V] [DecidableEq K] (hash : K → Nat)
    (m : HashMap K V) (k : K) (v : V) : Option (HashMap K V) :=
  insertF hash 1 m k v

/-- Rust `HashMap::extend`: brand-new table of capacity `old * 2 + 1`, then
re-insert every occupied binding through `insert`. -/
def HashMap.extend [Inhabited K] [Inhabited V] [DecidableEq K] (hash : K → Nat)
    (m : HashMap K V) : Option (HashMap K V) :=
  extendGo hash 0 m.entries (HashMap.withCapacity K V (m.entries.length * 2 + 1))

/-- A whole sequence of `insert` calls (the driver loops of the demo and the
benchmark); `none` as soon as one insert panics. -/
def insertSeq [Inhabited K] [Inhabited V] [DecidableEq K] (hash : K → Nat)
    (m : HashMap K V) : List (K × V) → Option (HashMap K V)
  | [] => some m
  | p :: rest =>
    match HashMap.insert hash m p.1 p.2 with
    | none => none
    | some m' => insertSeq hash m' rest

/-- Rust `struct HashMapIterator { entries: &Vec<Entry>, current_index: usize }`. -/
structure HashMapIterator (K V : Type) where
  entries : List (Entry K V)
  current_index : Nat

/-- Rust `HashMap::iter()`. -/
def HashMap.iter (m : HashMap K V) : HashMapIterator K V :=
  ⟨m.entries, 0⟩

/-- The `while` loop of `HashMapIterator::next`: starting at `i`, skip
unoccupied slots; on the first occupied slot return its binding together with
the index just past it; past the end return `none`. -/
def nextGo [Inhabited K] [Inhabited V] (entries : List (Entry K V)) (i : Nat) :
    Option ((K × V) × Nat) :=
  if _h : i < entries.length then
    if (entAt entries i).occupied then
      some (((entAt entries i).key, (entAt entries i).value), i + 1)
    else
      nextGo entries (i + 1)
  else
    none
  termination_by entries.length - i

/-- Rust `HashMapIterator::next`. -/
def HashMapIterator.next [Inhabited K] [Inhabited V] (it : HashMapIterator K V) :
    Option ((K × V) × HashMapIterator K V) :=
  (nextGo it.entries it.current_index).map (fun r => (r.1, ⟨it.entries, r.2⟩))

/-- Repeatedly call `next`, collecting the produced pairs, for at most `fuel`
calls.  `next` strictly advances `current_index`, so
`entries.length + 1 - current_index` calls always reach the terminal `none`
(proven in `drainF_eq_bindings_drop`); `drain` runs with exactly that fuel. -/
def drainF [Inhabited K] [Inhabited V] : Nat → HashMapIterator K V → List (K × V)
  | 0, _ => []
  | fuel + 1, it =>
    match it.next with
    | none => []
    | some (p, it') => p :: drainF fuel it'

/-- Drain the iterator: the list of all pairs produced by repeatedly calling
`next` until it returns `none` (how `for (key, value) in days.iter()`
consumes it). -/
def drain [Inhabited K] [Inhabited V] (it : HashMapIterator K V) : List (K × V) :=
  drainF (it.entries.length + 1 - it.current_index) it

/-- The occupied bindings of a slot list, in increasing slot order. -/
def bindingsOf [Inhabited K] [Inhabited V] (l : List (Entry K V)) : List (K × V) :=
  (l.filter (fun e => e.occupied)).map (fun e => (e.key, e.value))

/-- Number of occupied slots. -/
def countOcc (l : List (Entry K V)) : Nat :=
  l.countP (fun e => e.occupied)

/-- The slot visited `t` steps after `start` when probing linearly with
wraparound in a table of `len` slots. -/
def probe (len start t : Nat) : Nat :=
  (start + t) % len

/-- Number of forward steps (with wraparound) from `start` to `i`. -/
def distTo (len start i : Nat) : Nat :=
  (i + len - start) % len

/-- The spec's wording of the djb2 iteration: `h := (h << 5) + h + b`,
"computed with wrap-on-overflow (modulo 2^word-width) unsigned machine-width
arithmetic at every step". -/
def djb2SpecStep (h b : Nat) : Nat :=
  ((h <<< 5) + h + b) % usizeSize

/-- The spec's djb2 hash of a byte sequence, starting from 5381. -/
def djb2Spec (bytes : List Nat) : Nat :=
  bytes.foldl djb2SpecStep 5381

/-- Home slot of the key stored at slot `i`. -/
def homeIdx [Inhabited K] [Inhabited V] (hash : K → Nat)
    (entries : List (Entry K V)) (i : Nat) : Nat :=
  hash (keyAt entries i) % entries.length

/-- The data-model invariants of a table (spec section 3): the occupied counter
is exact, the load factor stays at or below one half, occupied slots hold
pairwise distinct keys, and every occupied slot is reachable from its key's
home slot through occupied slots only (the open-addressing probe invariant). -/
def Inv [Inhabited K] [Inhabited V] [DecidableEq K] (hash : K → Nat)
    (m : HashMap K V) : Prop :=
  m.occupied = countOcc m.entries ∧
  2 * m.occupied ≤ m.entries.length ∧
  (∀ i, i < m.entries.length → ∀ j, j < m.entries.length →
    occB m.entries i → occB m.entries j →
    keyAt m.entries i = keyAt m.entries j → i = j) ∧
  (∀ i, i < m.entries.length → occB m.entries i →
    ∀ t, t < distTo m.entries.length (homeIdx hash m.entries i) i →
      occB m.entries (probe m.entries.length (homeIdx hash m.entries i) t))

instance [Inhabited K] [Inhabited V] [DecidableEq K] (hash : K → Nat)
    (m : HashMap K V) : Decidable (Inv hash m) := by
  unfold Inv
  infer_instance

/-- Key `k` is bound to value `v` at some occupied slot. -/
def mapsTo [Inhabited K] [Inhabited V] (m : HashMap K V) (k : K) (v : V) : Prop :=
  ∃ i, i < m.entries.length ∧ occB m.entries i ∧ keyAt m.entries i = k ∧
    (entAt m.entries i).value = v

/-- Key `k` occupies no slot of the table. -/
def absent [Inhabited K] [Inhabited V] (m : HashMap K V) (k : K) : Prop :=
  ∀ i, i < m.entries.length → occB m.entries i → keyAt m.entries i ≠ k

/-- Tables reachable from the constructors through the public interface:
`insert` calls plus value writes through a successful `get_mut` borrow
(`get`, `iter` and failed lookups do not change the table). -/
inductive Reachable [Inhabited K] [Inhabited V] [DecidableEq K] (hash : K → Nat) :
    HashMap K V → Prop
  | new : Reachable hash (HashMap.new K V)
  | empty : Reachable hash (HashMap.empty K V)
  | withCapacity (c : Nat) : Reachable hash (HashMap.withCapacity K V c)
  | insert {m m' : HashMap K V} (k : K) (v : V) : Reachable hash m →
      HashMap.insert hash m k v = some m' → Reachable hash m'
  | writeVal {m : HashMap K V} {k : K} {i : Nat} (v : V) : Reachable hash m →
      HashMap.get_index hash m k = some (some i) → Reachable hash (overwriteAt m i v)

/-- The stopping condition of the spec's `locate` scan: the slot is
unoccupied, or occupied and holding the target key. -/
def stopHit [Inhabited K] [Inhabited V] (entries : List (Entry K V)) (k : K)
    (j : Nat) : Prop :=
  ¬ occB entries j ∨ keyAt entries j = k

instance [Inhabited K] [Inhabited V] [DecidableEq K] (entries : List (Entry K V))
    (k : K) (j : Nat) : Decidable (stopHit entries k j) := by
  unfold stopHit
  infer_instance

/-- The spec's `locate(key)`, written from its words: compute
`start = hash(key) mod capacity`; scan forward with wraparound for up to
`capacity` steps; stop at the first unoccupied slot or the first occupied
slot whose key equals the target; return that index only if the stopping
slot is occupied and its key equals the target, otherwise report absent. -/
def locateSpec [Inhabited K] [Inhabited V] [DecidableEq K] (hash : K → Nat)
    (m : HashMap K V) (k : K) : Option Nat :=
  let len := m.entries.length
  let start := hash k % len
  if h : ∃ t, t < len ∧ stopHit m.entries k (probe len start t) then
    let j := probe len start (Nat.find h)
    if occB m.entries j ∧ keyAt m.entries j = k then some j else none
  else none

/-- The single-body reading of `insertF`, matching the Rust source line by
line: try the overwrite branch, otherwise resize when at or above half load
(consuming one unit of recursion fuel), then probe for a free slot. -/
theorem insertF_eq {K V : Type} [Inhabited K] [Inhabited V] [DecidableEq K]
    (hash : K → Nat) (fuel : Nat) (m : HashMap K V) (k : K) (v : V) :
    insertF hash fuel m k v =
      match HashMap.get_index hash m k with
      | none => none
      | some (some i) => some (overwriteAt m i v)
      | some none =>
        if m.entries.length / 2 ≤ m.occupied then
          match fuel with
          | 0 => none
          | fuel' + 1 =>
            (extendGoF (fun acc k' v' => insertF hash fuel' acc k' v') m.entries
                (HashMap.withCapacity K V (m.entries.length * 2 + 1))).map
              (fun m1 => placeAt hash m1 k v)
        else some (placeAt hash m k v) := by
  cases fuel <;> rw [insertF]

/-! ## Probe geometry -/

theorem probe_zero {len start : Nat} (h : start < len) : probe len start 0 = start := by
  simp [probe, Nat.mod_eq_of_lt h]

theorem probe_lt {len start : Nat} (t : Nat) (h : 0 < len) : probe len start t < len :=
  Nat.mod_lt _ h

theorem distTo_lt {len start : Nat} (i : Nat) (h : 0 < len) : distTo len start i < len :=
  Nat.mod_lt _ h

theorem probe_shift {len start : Nat} (t : Nat) (h : 0 < len) :
    probe len ((start + 1) % len) t = probe len start (t + 1) := by
  simp only [probe, Nat.mod_add_mod]
  ring_nf

theorem probe_distTo {len start i : Nat} (hs : start < len) (hi : i < len) :
    probe len start (distTo len start i) = i := by
  unfold probe distTo
  rcases le_or_lt start i with hle | hlt
  · have h1 : i + len - start = (i - start) + len := by omega
    rw [h1, Nat.add_mod_right, Nat.mod_eq_of_lt (show i - start < len by omega)]
    have h2 : start + (i - start) = i := by omega
    rw [h2, Nat.mod_eq_of_lt hi]
  · have h1 : i + len - start < len := by omega
    rw [Nat.mod_eq_of_lt h1]
    have h2 : start + (i + len - start) = i + len := by omega
    rw [h2, Nat.add_mod_right, Nat.mod_eq_of_lt hi]

theorem probe_inj {len start : Nat} {t u : Nat} (ht : t < len) (hu : u < len)
    (h : probe len start t = probe len start u) : t = u := by
  unfold probe at h
  have hmod : Nat.ModEq len (start + t) (start + u) := h
  have h2 : t % len = u % len := Nat.ModEq.add_left_cancel' start hmod
  rw [Nat.mod_eq_of_lt ht, Nat.mod_eq_of_lt hu] at h2
  exact h2

theorem distTo_probe {len start t : Nat} (hs : start < len) (ht : t < len) :
    distTo len start (probe len start t) = t := by
  have h0 : 0 < len := by omega
  exact probe_inj (distTo_lt _ h0) ht (by rw [probe_distTo hs (probe_lt t h0)])

/-! ## Slot access helper lemmas -/

section SlotLemmas

variable [Inhabited K] [Inhabited V]

theorem entAt_eq_getElem {l : List (Entry K V)} {i : Nat} (h : i < l.length) :
    entAt l i = l[i] := by
  simp [entAt, List.getD_eq_getElem?_getD, List.getElem?_eq_getElem h]

theorem entAt_default {l : List (Entry K V)} {i : Nat} (h : l.length ≤ i) :
    entAt l i = default := by
  simp [entAt, List.getD_eq_getElem?_getD, List.getElem?_eq_none h]

theorem default_not_occupied : (default : Entry K V).occupied = false := rfl

theorem occB_lt {l : List (Entry K V)} {i : Nat} (h : occB l i) : i < l.length := by
  by_contra hge
  rw [occB, entAt_default (by omega)] at h
  exact absurd h (by simp [default_not_occupied])

theorem entAt_set_self {l : List (Entry K V)} {i : Nat} (h : i < l.length)
    (a : Entry K V) : entAt (l.set i a) i = a := by
  simp [entAt, List.getD_eq_getElem?_getD, List.getElem?_set_eq_of_lt a h]

theorem entAt_set_ne {l : List (Entry K V)} {i j : Nat} (h : i ≠ j)
    (a : Entry K V) : entAt (l.set i a) j = entAt l j := by
  simp [entAt, List.getD_eq_getElem?_getD, List.getElem?_set_ne h]

theorem countP_set_add {l : List (Entry K V)} (p : Entry K V → Bool) :
    ∀ (i : Nat), i < l.length → ∀ (a : Entry K V),
      (l.set i a).countP p + (if p (entAt l i) then 1 else 0)
        = l.countP p + (if p a then 1 else 0) := by
  induction l with
  | nil => intro i hi; simp at hi
  | cons hd tl ih =>
    intro i hi a
    cases i with
    | zero =>
      simp only [List.set_cons_zero, List.countP_cons]
      have : entAt (hd :: tl) 0 = hd := by
        simpa using entAt_eq_getElem (l := hd :: tl) (i := 0) (by simp)
      rw [this]
      omega
    | succ n =>
      simp only [List.set_cons_succ, List.countP_cons]
      have hlen : n < tl.length := by simpa using hi
      have hAt : entAt (hd :: tl) (n + 1) = entAt tl n := by
        rw [entAt_eq_getElem (by simpa using hi), entAt_eq_getElem hlen]
        simp
      rw [hAt]
      have := ih n hlen a
      omega

theorem countOcc_le_length (l : List (Entry K V)) : countOcc l ≤ l.length :=
  List.countP_le_length _

theorem countOcc_replicate (c : Nat) :
    countOcc (List.replicate c (default : Entry K V)) = 0 := by
  simp [countOcc, List.countP_eq_zero, default_not_occupied]

/-- If not every slot is occupied, some in-range slot is free. -/
theorem exists_free_of_countOcc_lt {l : List (Entry K V)}
    (h : countOcc l < l.length) : ∃ j, j < l.length ∧ ¬ occB l j := by
  by_contra hall
  push_neg at hall
  have : countOcc l = l.length := by
    rw [countOcc, List.countP_eq_length]
    intro e he
    obtain ⟨j, hj, rfl⟩ := List.mem_iff_getElem.mp he
    have := hall j hj
    rwa [occB, entAt_eq_getElem hj] at this
  omega

end SlotLemmas

/-! ## The djb2 hash (claim C6) -/

theorem stringHashStep_eq (h b : Nat) : stringHashStep h b = djb2SpecStep h b := by
  unfold stringHashStep djb2SpecStep
  conv_rhs => rw [Nat.add_mod, Nat.add_mod (h <<< 5) h]
  simp [Nat.mod_mod_of_dvd, Nat.add_mod_mod, Nat.mod_add_mod]

theorem strHashStep_eq (h b : Nat) : strHashStep h b = djb2SpecStep h b :=
  stringHashStep_eq h b

/-! ## The table invariant (the data-model invariants of spec section 3) -/

section Invariant

variable [Inhabited K] [Inhabited V] [DecidableEq K] (hash : K → Nat)

theorem Inv_withCapacity (c : Nat) : Inv hash (HashMap.withCapacity K V c) := by
  refine ⟨?_, ?_, ?_, ?_⟩
  · simp [HashMap.withCapacity, countOcc_replicate]
  · simp [HashMap.withCapacity]
  · intro i hi j hj hoi hoj hk
    exfalso
    rw [HashMap.withCapacity] at hi hoi
    simp only [List.length_replicate] at hi
    rw [occB, entAt_eq_getElem (by simpa [HashMap.withCapacity] using hi)] at hoi
    simp [HashMap.withCapacity, List.getElem_replicate, default_not_occupied] at hoi
  · intro i hi hoi
    exfalso
    rw [HashMap.withCapacity] at hi hoi
    simp only [List.length_replicate] at hi
    rw [occB, entAt_eq_getElem (by simpa [HashMap.withCapacity] using hi)] at hoi
    simp [HashMap.withCapacity, List.getElem_replicate, default_not_occupied] at hoi

theorem Inv_empty : Inv hash (HashMap.empty K V) := by
  refine ⟨by simp [HashMap.empty, countOcc], by simp [HashMap.empty], ?_, ?_⟩
  · intro i hi
    simp [HashMap.empty] at hi
  · intro i hi
    simp [HashMap.empty] at hi

theorem absent_iff_not_mapsTo (m : HashMap K V) (k : K) :
    absent m k ↔ ∀ v, ¬ mapsTo m k v := by
  constructor
  · rintro ha v ⟨i, hi, hoi, hki, hvi⟩
    exact ha i hi hoi hki
  · intro h i hi hoi hki
    exact h (entAt m.entries i).value ⟨i, hi, hoi, hki, rfl⟩

theorem not_absent_iff (m : HashMap K V) (k : K) :
    ¬ absent m k ↔ ∃ v, mapsTo m k v := by
  rw [absent_iff_not_mapsTo]
  push_neg
  simp

end Invariant

/-! ## Scan lemmas: the probing loops stop at the first qualifying slot -/

section Scan

variable [Inhabited K] [Inhabited V] [DecidableEq K]

theorem getIndexGo_eq_of_stop (entries : List (Entry K V)) (k : K) :
    ∀ (t fuel s : Nat), s < entries.length → t < fuel →
      (∀ u, u < t → occB entries (probe entries.length s u) ∧
        keyAt entries (probe entries.length s u) ≠ k) →
      (¬ occB entries (probe entries.length s t) ∨
        keyAt entries (probe entries.length s t) = k) →
      getIndexGo entries k fuel s = probe entries.length s t := by
  intro t
  induction t with
  | zero =>
    intro fuel s hs ht hrun hstop
    cases fuel with
    | zero => omega
    | succ f =>
      rw [probe_zero hs] at hstop ⊢
      rw [getIndexGo]
      by_cases hocc : occB entries s
      · rcases hstop with h | h
        · exact absurd hocc h
        · rw [if_neg (by simpa [occB] using hocc), if_pos (by simpa [keyAt] using h)]
      · rw [if_pos (by simpa [occB] using hocc)]
  | succ t ih =>
    intro fuel s hs ht hrun hstop
    have hlen : 0 < entries.length := by omega
    cases fuel with
    | zero => omega
    | succ f =>
      have h0 := hrun 0 (by omega)
      rw [probe_zero hs] at h0
      rw [getIndexGo, if_neg (by simpa [occB] using h0.1),
        if_neg (by simpa [keyAt] using h0.2)]
      have hs' : (s + 1) % entries.length < entries.length := Nat.mod_lt _ hlen
      rw [show probe entries.length s (t + 1)
            = probe entries.length ((s + 1) % entries.length) t from
          (probe_shift t hlen).symm]
      refine ih f ((s + 1) % entries.length) hs' (by omega) ?_ ?_
      · intro u hu
        rw [probe_shift u hlen]
        exact hrun (u + 1) (by omega)
      · rw [probe_shift t hlen]
        exact hstop

theorem getIndexGo_eq_of_nostop (entries : List (Entry K V)) (k : K) :
    ∀ (fuel s : Nat), s < entries.length →
      (∀ u, u < fuel → occB entries (probe entries.length s u) ∧
        keyAt entries (probe entries.length s u) ≠ k) →
      getIndexGo entries k fuel s = probe entries.length s fuel := by
  intro fuel
  induction fuel with
  | zero =>
    intro s hs _
    rw [getIndexGo, probe_zero hs]
  | succ f ih =>
    intro s hs hrun
    have hlen : 0 < entries.length := by omega
    have h0 := hrun 0 (by omega)
    rw [probe_zero hs] at h0
    rw [getIndexGo, if_neg (by simpa [occB] using h0.1),
      if_neg (by simpa [keyAt] using h0.2)]
    have hs' : (s + 1) % entries.length < entries.length := Nat.mod_lt _ hlen
    rw [show probe entries.length s (f + 1)
          = probe entries.length ((s + 1) % entries.length) f from
        (probe_shift f hlen).symm]
    refine ih ((s + 1) % entries.length) hs' ?_
    intro u hu
    rw [probe_shift u hlen]
    exact hrun (u + 1) (by omega)

theorem placeGo_eq_of_firstFree (entries : List (Entry K V)) (k : K) (v : V) :
    ∀ (t fuel s : Nat), s < entries.length → t < fuel →
      (∀ u, u < t → occB entries (probe entries.length s u)) →
      ¬ occB entries (probe entries.length s t) →
      placeGo k v entries fuel s
        = (entries.set (probe entries.length s t) ⟨true, k, v⟩, true) := by
  intro t
  induction t with
  | zero =>
    intro fuel s hs ht hrun hfree
    cases fuel with
    | zero => omega
    | succ f =>
      rw [probe_zero hs] at hfree ⊢
      rw [placeGo, if_pos (by simpa [occB] using hfree)]
  | succ t ih =>
    intro fuel s hs ht hrun hfree
    have hlen : 0 < entries.length := by omega
    cases fuel with
    | zero => omega
    | succ f =>
      have h0 := hrun 0 (by omega)
      rw [probe_zero hs] at h0
      rw [placeGo, if_neg (by simpa [occB] using h0)]
      have hs' : (s + 1) % entries.length < entries.length := Nat.mod_lt _ hlen
      rw [show probe entries.length s (t + 1)
            = probe entries.length ((s + 1) % entries.length) t from
          (probe_shift t hlen).symm]
      refine ih f ((s + 1) % entries.length) hs' (by omega) ?_ ?_
      · intro u hu
        rw [probe_shift u hlen]
        exact hrun (u + 1) (by omega)
      · rw [probe_shift t hlen]
        exact hfree

end Scan

/-! ## Characterizing `get_index`, `get` and `get_mut` -/

section GetIndex

variable [Inhabited K] [Inhabited V] [DecidableEq K] (hash : K → Nat)

/-- On a table satisfying the invariant, `get_index` finds the slot of a
present key. -/
theorem get_index_of_slot {m : HashMap K V} (hInv : Inv hash m)
    (hlen : 0 < m.entries.length) {i : Nat} {k : K}
    (hi : i < m.entries.length) (hoi : occB m.entries i)
    (hki : keyAt m.entries i = k) :
    HashMap.get_index hash m k = some (some i) := by
  obtain ⟨_, _, hdis, hprobe⟩ := hInv
  set len := m.entries.length with hlendef
  set s := hash k % len with hsdef
  have hs : s < len := Nat.mod_lt _ hlen
  have hhome : homeIdx hash m.entries i = s := by
    rw [homeIdx, hki, hsdef, hlendef]
  set d := distTo len s i with hddef
  have hd : d < len := distTo_lt _ hlen
  have hpd : probe len s d = i := probe_distTo hs hi
  have hrun : ∀ u, u < d → occB m.entries (probe len s u) ∧
      keyAt m.entries (probe len s u) ≠ k := by
    intro u hu
    have hocc : occB m.entries (probe len s u) := by
      have := hprobe i hi hoi u (by rw [hhome]; exact hu)
      rwa [hhome] at this
    refine ⟨hocc, fun hkey => ?_⟩
    have hplt : probe len s u < len := probe_lt _ hlen
    have : probe len s u = i := hdis _ hplt _ hi hocc hoi (by rw [hkey, hki])
    rw [← hpd] at this
    have := probe_inj (by omega) hd this
    omega
  have hstop : ¬ occB m.entries (probe len s d) ∨
      keyAt m.entries (probe len s d) = k := by
    right
    rw [hpd, hki]
  have hscan : getIndexGo m.entries k len s = i := by
    rw [getIndexGo_eq_of_stop m.entries k d len s hs hd hrun hstop, hpd]
  rw [HashMap.get_index, rustMod, if_neg (by omega)]
  simp only [← hlendef, hscan, ← hsdef]
  rw [if_pos ⟨by simpa [occB] using hoi, by simpa [keyAt] using hki⟩]

/-- `get_index` reports absence for a key occupying no slot (no invariant
needed: the final re-check of the loop's stopping slot suffices). -/
theorem get_index_of_absent {m : HashMap K V} (hlen : 0 < m.entries.length)
    {k : K} (habs : absent m k) :
    HashMap.get_index hash m k = some none := by
  rw [HashMap.get_index, rustMod, if_neg (by omega)]
  simp only
  rw [if_neg]
  rintro ⟨ho, hk⟩
  have hocc : occB m.entries (getIndexGo m.entries k m.entries.length
      (hash k % m.entries.length)) := ho
  exact habs _ (occB_lt hocc) hocc hk

/-- What a successful `get_index` means, on any table at all. -/
theorem get_index_some_spec {m : HashMap K V} {k : K} {i : Nat}
    (h : HashMap.get_index hash m k = some (some i)) :
    i < m.entries.length ∧ occB m.entries i ∧ keyAt m.entries i = k := by
  rw [HashMap.get_index] at h
  rcases hm : rustMod (hash k) m.entries.length with _ | start
  · rw [hm] at h
    exact absurd h (by simp)
  · rw [hm] at h
    simp only [Option.some.injEq] at h
    split at h
    · rename_i hcond
      have hi : i = getIndexGo m.entries k m.entries.length start := by
        exact (Option.some.injEq _ _ ▸ h).symm
      rw [← hi] at hcond
      exact ⟨occB_lt (by simpa [occB] using hcond.1),
        by simpa [occB] using hcond.1, by simpa [keyAt] using hcond.2⟩
    · exact absurd h (by simp)

/-- `get` returns the bound value of a present key. -/
theorem get_of_mapsTo {m : HashMap K V} (hInv : Inv hash m)
    (hlen : 0 < m.entries.length) {k : K} {v : V} (hmt : mapsTo m k v) :
    HashMap.get hash m k = some (some v) := by
  obtain ⟨i, hi, hoi, hki, hvi⟩ := hmt
  rw [HashMap.get, get_index_of_slot hash hInv hlen hi hoi hki]
  simp [hvi]

/-- `get` reports absence for an absent key. -/
theorem get_of_absent {m : HashMap K V} (hlen : 0 < m.entries.length)
    {k : K} (habs : absent m k) :
    HashMap.get hash m k = some none := by
  rw [HashMap.get, get_index_of_absent hash hlen habs]
  rfl

end GetIndex

/-! ## The two insert branches -/

section InsertBranches

variable [Inhabited K] [Inhabited V] [DecidableEq K] (hash : K → Nat)

theorem occB_set_true_mono {l : List (Entry K V)} {i x : Nat}
    (hi : i < l.length) (k : K) (v : V) (h : occB l x) :
    occB (l.set i ⟨true, k, v⟩) x := by
  by_cases hxi : x = i
  · subst hxi
    rw [occB, entAt_set_self hi]
  · rw [occB, entAt_set_ne (fun he => hxi he.symm)]
    exact h

/-- The fresh-insert branch: on an invariant-satisfying table with a free
slot budget, `placeAt` claims exactly one previously free slot for `(k, v)`. -/
theorem placeAt_spec {m : HashMap K V} (hInv : Inv hash m)
    (hlen : 0 < m.entries.length) {k : K} (habs : absent m k)
    (hload : 2 * (m.occupied + 1) ≤ m.entries.length) (v : V) :
    ∃ j, j < m.entries.length ∧ ¬ occB m.entries j ∧
      placeAt hash m k v = ⟨m.entries.set j ⟨true, k, v⟩, m.occupied + 1⟩ ∧
      Inv hash (placeAt hash m k v) ∧
      (placeAt hash m k v).entries.length = m.entries.length ∧
      (placeAt hash m k v).occupied = m.occupied + 1 ∧
      mapsTo (placeAt hash m k v) k v ∧
      (∀ k', k' ≠ k → ∀ v', (mapsTo (placeAt hash m k v) k' v' ↔ mapsTo m k' v')) := by
  obtain ⟨ha, hb, hdis, hprobe⟩ := hInv
  set l := m.entries with hldef
  set len := m.entries.length with hlendef
  set s := hash k % len with hsdef
  have hs : s < len := Nat.mod_lt _ hlen
  have hcnt : countOcc l < len := by
    rw [← ha]
    omega
  obtain ⟨jf, hjf, hjfree⟩ := exists_free_of_countOcc_lt hcnt
  have hex : ∃ u, ¬ occB l (probe len s u) := by
    refine ⟨distTo len s jf, ?_⟩
    rw [probe_distTo hs hjf]
    exact hjfree
  set tf := Nat.find hex with htfdef
  have htf_free : ¬ occB l (probe len s tf) := Nat.find_spec hex
  have htf_min : ∀ u, u < tf → occB l (probe len s u) := by
    intro u hu
    exact not_not.mp (Nat.find_min hex hu)
  have htf_lt : tf < len := by
    have h1 : tf ≤ distTo len s jf := by
      apply Nat.find_min'
      rw [probe_distTo hs hjf]
      exact hjfree
    have := @distTo_lt len s jf hlen
    omega
  set jstar := probe len s tf with hjsdef
  have hjs : jstar < len := probe_lt _ hlen
  have hplace : placeAt hash m k v = ⟨l.set jstar ⟨true, k, v⟩, m.occupied + 1⟩ := by
    rw [placeAt]
    simp only [← hldef, ← hlendef, ← hsdef]
    rw [placeGo_eq_of_firstFree l k v tf len s hs htf_lt htf_min htf_free]
    simp [hjsdef]
  have hlen' : (l.set jstar ⟨true, k, v⟩).length = len := by
    rw [List.length_set, hlendef]
  have hoccn : ∀ x, occB l x → occB (l.set jstar ⟨true, k, v⟩) x :=
    fun x hx => occB_set_true_mono hjs k v hx
  have hAtStar : entAt (l.set jstar ⟨true, k, v⟩) jstar = ⟨true, k, v⟩ :=
    entAt_set_self hjs _
  have hAtNe : ∀ x, x ≠ jstar → entAt (l.set jstar ⟨true, k, v⟩) x = entAt l x :=
    fun x hx => entAt_set_ne (fun he => hx he.symm) _
  have hoccn' : ∀ x, x ≠ jstar → occB (l.set jstar ⟨true, k, v⟩) x = occB l x := by
    intro x hx
    rw [occB, occB, hAtNe x hx]
  have hkeyn : ∀ x, x ≠ jstar → keyAt (l.set jstar ⟨true, k, v⟩) x = keyAt l x := by
    intro x hx
    rw [keyAt, keyAt, hAtNe x hx]
  have hkstar : keyAt (l.set jstar ⟨true, k, v⟩) jstar = k := by
    rw [keyAt, hAtStar]
  have hostar : occB (l.set jstar ⟨true, k, v⟩) jstar = true := by
    rw [occB, hAtStar]
  refine ⟨jstar, hjs, (by rw [hjsdef]; exact htf_free), hplace, ?_, ?_, ?_, ?_, ?_⟩
  · -- the invariant
    rw [hplace]
    refine ⟨?_, ?_, ?_, ?_⟩
    · -- exact counter
      show m.occupied + 1 = countOcc (l.set jstar ⟨true, k, v⟩)
      have hstep := countP_set_add (l := l) (fun e => e.occupied) jstar hjs ⟨true, k, v⟩
      have hjnot : (entAt l jstar).occupied = false := by
        simpa [occB] using htf_free
      simp only [hjnot] at hstep
      simp only [countOcc] at ha ⊢
      simp at hstep
      omega
    · -- load factor
      show 2 * (m.occupied + 1) ≤ (l.set jstar ⟨true, k, v⟩).length
      rw [hlen']
      exact hload
    · -- distinct keys
      show ∀ x, x < (l.set jstar ⟨true, k, v⟩).length →
        ∀ y, y < (l.set jstar ⟨true, k, v⟩).length →
        occB (l.set jstar ⟨true, k, v⟩) x → occB (l.set jstar ⟨true, k, v⟩) y →
        keyAt (l.set jstar ⟨true, k, v⟩) x = keyAt (l.set jstar ⟨true, k, v⟩) y → x = y
      intro x hx y hy hox hoy hkeq
      rw [hlen'] at hx hy
      by_cases hxs : x = jstar <;> by_cases hys : y = jstar
      · rw [hxs, hys]
      · exfalso
        rw [hxs, hkstar, hkeyn y hys] at hkeq
        have hoy' : occB l y := by rwa [hoccn' y hys] at hoy
        exact habs y hy hoy' hkeq.symm
      · exfalso
        rw [hys, hkstar, hkeyn x hxs] at hkeq
        have hox' : occB l x := by rwa [hoccn' x hxs] at hox
        exact habs x hx hox' hkeq
      · have hox' : occB l x := by rwa [hoccn' x hxs] at hox
        have hoy' : occB l y := by rwa [hoccn' y hys] at hoy
        refine hdis x hx y hy hox' hoy' ?_
        rwa [hkeyn x hxs, hkeyn y hys] at hkeq
    · -- probe invariant
      show ∀ x, x < (l.set jstar ⟨true, k, v⟩).length →
        occB (l.set jstar ⟨true, k, v⟩) x →
        ∀ t, t < distTo (l.set jstar ⟨true, k, v⟩).length
            (homeIdx hash (l.set jstar ⟨true, k, v⟩) x) x →
          occB (l.set jstar ⟨true, k, v⟩)
            (probe (l.set jstar ⟨true, k, v⟩).length
              (homeIdx hash (l.set jstar ⟨true, k, v⟩) x) t)
      intro x hx hox t ht
      by_cases hxs : x = jstar
      · subst hxs
        rw [homeIdx, hkstar, hlen', ← hsdef] at ht ⊢
        rw [hjsdef, distTo_probe hs htf_lt] at ht
        exact hoccn _ (htf_min t ht)
      · have hox' : occB l x := by rwa [hoccn' x hxs] at hox
        rw [homeIdx, hkeyn x hxs, hlen'] at ht ⊢
        rw [hlen'] at hx
        exact hoccn _ (hprobe x hx hox' t ht)
  · rw [hplace]
    exact hlen'
  · rw [hplace]
  · -- the new binding is present
    rw [hplace]
    refine ⟨jstar, ?_, hostar, hkstar, by rw [hAtStar]⟩
    show jstar < (l.set jstar ⟨true, k, v⟩).length
    rw [hlen']
    exact hjs
  · -- frame: all other keys unchanged
    intro k' hk' v'
    rw [hplace]
    constructor
    · rintro ⟨x, hx, hox, hkx, hvx⟩
      have hx' : x < (l.set jstar ⟨true, k, v⟩).length := hx
      rw [hlen'] at hx'
      by_cases hxs : x = jstar
      · exfalso
        rw [hxs] at hkx
        rw [hkstar] at hkx
        exact hk' hkx.symm
      · exact ⟨x, hx', by rwa [hoccn' x hxs] at hox,
          by rwa [hkeyn x hxs] at hkx, by rwa [hAtNe x hxs] at hvx⟩
    · rintro ⟨x, hx, hox, hkx, hvx⟩
      have hxs : x ≠ jstar := by
        intro he
        rw [he] at hox
        exact htf_free hox
      refine ⟨x, ?_, by rwa [hoccn' x hxs], by rwa [hkeyn x hxs],
        by rwa [hAtNe x hxs]⟩
      show x < (l.set jstar ⟨true, k, v⟩).length
      rw [hlen']
      exact hx

/-- The overwrite branch: on an invariant-satisfying table, `insert` of a
present key only replaces the value in that key's slot. -/
theorem overwriteAt_spec {m : HashMap K V} {k : K} {i : Nat} (hInv : Inv hash m)
    (h : HashMap.get_index hash m k = some (some i)) (v : V) :
    overwriteAt m i v = ⟨m.entries.set i ⟨true, k, v⟩, m.occupied⟩ ∧
      Inv hash (overwriteAt m i v) ∧
      (overwriteAt m i v).entries.length = m.entries.length ∧
      (overwriteAt m i v).occupied = m.occupied ∧
      mapsTo (overwriteAt m i v) k v ∧
      (∀ k', k' ≠ k → ∀ v', (mapsTo (overwriteAt m i v) k' v' ↔ mapsTo m k' v')) ∧
      (∀ j, j ≠ i → entAt (overwriteAt m i v).entries j = entAt m.entries j) ∧
      entAt (overwriteAt m i v).entries i = ⟨true, k, v⟩ := by
  obtain ⟨hi, hoi, hki⟩ := get_index_some_spec hash h
  obtain ⟨ha, hb, hdis, hprobe⟩ := hInv
  set l := m.entries with hldef
  have h1 : (entAt l i).occupied = true := hoi
  have h2 : (entAt l i).key = k := hki
  have he' : ({ entAt l i with value := v } : Entry K V) = ⟨true, k, v⟩ := by
    simp [h1, h2]
  have hov : overwriteAt m i v = ⟨l.set i ⟨true, k, v⟩, m.occupied⟩ := by
    rw [overwriteAt, he']
  have hlen' : (l.set i ⟨true, k, v⟩).length = l.length := List.length_set l i _
  have hAt : entAt (l.set i ⟨true, k, v⟩) i = ⟨true, k, v⟩ := entAt_set_self hi _
  have hAtNe : ∀ x, x ≠ i → entAt (l.set i ⟨true, k, v⟩) x = entAt l x :=
    fun x hx => entAt_set_ne (fun he => hx he.symm) _
  have hocc_all : ∀ x, occB (l.set i ⟨true, k, v⟩) x = occB l x := by
    intro x
    by_cases hx : x = i
    · subst hx
      rw [occB, occB, hAt, h1]
    · rw [occB, occB, hAtNe x hx]
  have hkey_all : ∀ x, keyAt (l.set i ⟨true, k, v⟩) x = keyAt l x := by
    intro x
    by_cases hx : x = i
    · subst hx
      rw [keyAt, keyAt, hAt, h2]
    · rw [keyAt, keyAt, hAtNe x hx]
  refine ⟨hov, ?_, ?_, ?_, ?_, ?_, ?_, ?_⟩
  · -- the invariant
    rw [hov]
    refine ⟨?_, ?_, ?_, ?_⟩
    · show m.occupied = countOcc (l.set i ⟨true, k, v⟩)
      have hstep := countP_set_add (l := l) (fun e => e.occupied) i hi ⟨true, k, v⟩
      simp only [h1] at hstep
      simp only [countOcc] at ha ⊢
      simp at hstep
      omega
    · show 2 * m.occupied ≤ (l.set i ⟨true, k, v⟩).length
      rw [hlen']
      exact hb
    · show ∀ x, x < (l.set i ⟨true, k, v⟩).length →
        ∀ y, y < (l.set i ⟨true, k, v⟩).length →
        occB (l.set i ⟨true, k, v⟩) x → occB (l.set i ⟨true, k, v⟩) y →
        keyAt (l.set i ⟨true, k, v⟩) x = keyAt (l.set i ⟨true, k, v⟩) y → x = y
      intro x hx y hy hox hoy hkeq
      rw [hlen'] at hx hy
      rw [hocc_all] at hox hoy
      rw [hkey_all, hkey_all] at hkeq
      exact hdis x hx y hy hox hoy hkeq
    · show ∀ x, x < (l.set i ⟨true, k, v⟩).length →
        occB (l.set i ⟨true, k, v⟩) x →
        ∀ t, t < distTo (l.set i ⟨true, k, v⟩).length
            (homeIdx hash (l.set i ⟨true, k, v⟩) x) x →
          occB (l.set i ⟨true, k, v⟩)
            (probe (l.set i ⟨true, k, v⟩).length
              (homeIdx hash (l.set i ⟨true, k, v⟩) x) t)
      intro x hx hox t ht
      rw [hlen'] at hx
      rw [hocc_all] at hox
      rw [homeIdx, hkey_all, hlen'] at ht ⊢
      rw [hocc_all]
      exact hprobe x hx hox t ht
  · rw [hov]
    exact hlen'
  · rw [hov]
  · rw [hov]
    refine ⟨i, ?_, ?_, ?_, by rw [hAt]⟩
    · show i < (l.set i ⟨true, k, v⟩).length
      rw [hlen']
      exact hi
    · rw [occB, hAt]
    · rw [keyAt, hAt]
  · -- frame
    intro k' hk' v'
    rw [hov]
    constructor
    · rintro ⟨x, hx, hox, hkx, hvx⟩
      have hx' : x < (l.set i ⟨true, k, v⟩).length := hx
      rw [hlen'] at hx'
      have hxi : x ≠ i := by
        intro he
        rw [he] at hkx
        rw [keyAt, hAt] at hkx
        exact hk' hkx.symm
      exact ⟨x, hx', by rwa [hocc_all] at hox, by rwa [hkey_all] at hkx,
        by rwa [hAtNe x hxi] at hvx⟩
    · rintro ⟨x, hx, hox, hkx, hvx⟩
      have hxi : x ≠ i := by
        intro he
        rw [he] at hkx
        exact hk' (hkx.symm.trans hki)
      refine ⟨x, ?_, by rw [hocc_all]; exact hox, by rw [hkey_all]; exact hkx,
        by rw [hAtNe x hxi]; exact hvx⟩
      show x < (l.set i ⟨true, k, v⟩).length
      rw [hlen']
      exact hx
  · intro j hj
    rw [hov]
    exact hAtNe j hj
  · rw [hov]
    exact hAt

end InsertBranches

/-! ## The insert step and the resize fold -/

section InsertStep

variable [Inhabited K] [Inhabited V] [DecidableEq K] (hash : K → Nat)

theorem mapsTo_iff_exists_mem (m : HashMap K V) (k : K) (v : V) :
    mapsTo m k v ↔ ∃ e, e ∈ m.entries ∧ e.occupied ∧ e.key = k ∧ e.value = v := by
  constructor
  · rintro ⟨i, hi, hoi, hki, hvi⟩
    refine ⟨entAt m.entries i, ?_, by simpa [occB] using hoi,
      by simpa [keyAt] using hki, hvi⟩
    rw [entAt_eq_getElem hi]
    exact List.getElem_mem hi
  · rintro ⟨e, he, hocc, hk, hv⟩
    obtain ⟨i, hi, rfl⟩ := List.mem_iff_getElem.mp he
    exact ⟨i, hi, by simpa [occB, entAt_eq_getElem hi] using hocc,
      by simpa [keyAt, entAt_eq_getElem hi] using hk,
      by simpa [entAt_eq_getElem hi] using hv⟩

theorem absent_withCapacity (c : Nat) (k : K) :
    absent (HashMap.withCapacity K V c) k := by
  intro i hi hoi
  exfalso
  rw [HashMap.withCapacity] at hi hoi
  simp only [List.length_replicate] at hi
  rw [occB, entAt_eq_getElem (by simpa using hi)] at hoi
  simp [List.getElem_replicate, default_not_occupied] at hoi

/-- All key-hashing operations panic (`none`) on a zero-slot table. -/
theorem get_index_len_zero {m : HashMap K V} (h : m.entries.length = 0) (k : K) :
    HashMap.get_index hash m k = none := by
  rw [HashMap.get_index, rustMod, if_pos h]

theorem insertF_len_zero {m : HashMap K V} (h : m.entries.length = 0)
    (fuel : Nat) (k : K) (v : V) : insertF hash fuel m k v = none := by
  rw [insertF_eq, get_index_len_zero hash h]

/-- One `insert` on an invariant-satisfying table whose load budget rules out
a resize: the same successful result at every recursion fuel. -/
theorem insertF_step {m : HashMap K V} (hInv : Inv hash m)
    (hlen : 0 < m.entries.length)
    (hbud : 2 * (m.occupied + 1) ≤ m.entries.length) (k : K) (v : V) :
    ∃ m', (∀ fuel, insertF hash fuel m k v = some m') ∧
      Inv hash m' ∧ m'.entries.length = m.entries.length ∧
      mapsTo m' k v ∧
      (∀ k', k' ≠ k → ∀ v', (mapsTo m' k' v' ↔ mapsTo m k' v')) ∧
      (absent m k → m'.occupied = m.occupied + 1) ∧
      (¬ absent m k → m'.occupied = m.occupied) := by
  by_cases habs : absent m k
  · have hgi := get_index_of_absent hash hlen habs
    have hcheck : ¬ (m.entries.length / 2 ≤ m.occupied) := by omega
    obtain ⟨j, hj, hjfree, hplace, hInv', hlen', hocc', hmt', hframe'⟩ :=
      placeAt_spec hash hInv hlen habs hbud v
    refine ⟨placeAt hash m k v, ?_, hInv', hlen', hmt', hframe',
      fun _ => hocc', fun hna => absurd habs hna⟩
    intro fuel
    rw [insertF_eq, hgi]
    simp only [if_neg hcheck]
  · obtain ⟨v₀, hmt⟩ := (not_absent_iff m k).mp habs
    obtain ⟨i, hi, hoi, hki, hvi⟩ := hmt
    have hgi := get_index_of_slot hash hInv hlen hi hoi hki
    obtain ⟨hov, hInv', hlen', hocc', hmt', hframe', _, _⟩ :=
      overwriteAt_spec hash hInv hgi v
    refine ⟨overwriteAt m i v, ?_, hInv', hlen', hmt', hframe',
      fun hab => absurd hab habs, fun _ => hocc'⟩
    intro fuel
    rw [insertF_eq, hgi]

/-- The resize fold never consults its fuel and agrees with a plain sequence
of `insert` calls, as long as the accumulator has room for every remaining
occupied entry below its load threshold. -/
theorem extendGoF_budget :
    ∀ (l : List (Entry K V)) (acc : HashMap K V),
      Inv hash acc → 0 < acc.entries.length →
      2 * (acc.occupied + countOcc l) ≤ acc.entries.length →
      ∃ acc', (∀ fuel, extendGo hash fuel l acc = some acc') ∧
        insertSeq hash acc (bindingsOf l) = some acc' ∧
        Inv hash acc' ∧ acc'.entries.length = acc.entries.length ∧
        acc'.occupied ≤ acc.occupied + countOcc l := by
  intro l
  induction l with
  | nil =>
    intro acc h1 h2 h3
    exact ⟨acc, fun fuel => rfl, rfl, h1, rfl, by omega⟩
  | cons e rest ih =>
    intro acc hInv hlen hbud
    by_cases hocc : e.occupied
    · have hcnt : countOcc (e :: rest) = countOcc rest + 1 := by
        simp [countOcc, List.countP_cons, hocc]
      have hbud1 : 2 * (acc.occupied + 1) ≤ acc.entries.length := by omega
      obtain ⟨acc1, hins, hInv1, hlen1, hmt1, hframe1, hoccA, hoccP⟩ :=
        insertF_step hash hInv hlen hbud1 e.key e.value
      have hocc1 : acc1.occupied ≤ acc.occupied + 1 := by
        by_cases hab : absent acc e.key
        · rw [hoccA hab]
        · rw [hoccP hab]
          omega
      obtain ⟨acc', hgo, hseq, hInv', hlen', hocc'⟩ :=
        ih acc1 hInv1 (by omega) (by rw [hlen1]; omega)
      refine ⟨acc', ?_, ?_, hInv', by rw [hlen', hlen1], by omega⟩
      · intro fuel
        rw [extendGo, extendGoF, if_pos hocc, hins fuel]
        exact hgo fuel
      · have hbind : bindingsOf (e :: rest) = (e.key, e.value) :: bindingsOf rest := by
          simp [bindingsOf, List.filter_cons, hocc]
        rw [hbind, insertSeq, HashMap.insert, hins 1]
        exact hseq
    · have hcnt : countOcc (e :: rest) = countOcc rest := by
        simp [countOcc, List.countP_cons, hocc]
      obtain ⟨acc', hgo, hseq, hInv', hlen', hocc'⟩ :=
        ih acc hInv hlen (by omega)
      refine ⟨acc', ?_, ?_, hInv', hlen', by omega⟩
      · intro fuel
        rw [extendGo, extendGoF, if_neg hocc]
        exact hgo fuel
      · have hbind : bindingsOf (e :: rest) = bindingsOf rest := by
          simp [bindingsOf, List.filter_cons, hocc]
        rw [hbind]
        exact hseq

theorem mapsTo_unique {m : HashMap K V} (hInv : Inv hash m) {k : K} {v v' : V}
    (h1 : mapsTo m k v) (h2 : mapsTo m k v') : v = v' := by
  obtain ⟨i, hi, hoi, hki, hvi⟩ := h1
  obtain ⟨j, hj, hoj, hkj, hvj⟩ := h2
  have : i = j := hInv.2.2.1 i hi j hj hoi hoj (by rw [hki, hkj])
  subst this
  rw [← hvi, ← hvj]

/-- The resize fold for distinct keys all absent from the accumulator: exact
occupied count and a full characterization of the resulting bindings. -/
theorem extendGoF_full :
    ∀ (l : List (Entry K V)) (acc : HashMap K V),
      Inv hash acc → 0 < acc.entries.length →
      2 * (acc.occupied + countOcc l) ≤ acc.entries.length →
      (∀ e, e ∈ l → e.occupied → absent acc e.key) →
      List.Pairwise (fun a b => a.occupied → b.occupied → a.key ≠ b.key) l →
      ∃ acc', (∀ fuel, extendGo hash fuel l acc = some acc') ∧
        Inv hash acc' ∧ acc'.entries.length = acc.entries.length ∧
        acc'.occupied = acc.occupied + countOcc l ∧
        (∀ k v, mapsTo acc' k v ↔
          (mapsTo acc k v ∨ ∃ e, e ∈ l ∧ e.occupied ∧ e.key = k ∧ e.value = v)) := by
  intro l
  induction l with
  | nil =>
    intro acc h1 h2 h3 _ _
    refine ⟨acc, fun fuel => rfl, h1, rfl, by simp [countOcc], ?_⟩
    intro k v
    simp
  | cons e rest ih =>
    intro acc hInv hlen hbud hab hpw
    rcases List.pairwise_cons.mp hpw with ⟨hpe, hpw'⟩
    by_cases hocc : e.occupied
    · have hcnt : countOcc (e :: rest) = countOcc rest + 1 := by
        simp [countOcc, List.countP_cons, hocc]
      have hbud1 : 2 * (acc.occupied + 1) ≤ acc.entries.length := by omega
      obtain ⟨acc1, hins, hInv1, hlen1, hmt1, hframe1, hoccA, hoccP⟩ :=
        insertF_step hash hInv hlen hbud1 e.key e.value
      have habse : absent acc e.key := hab e (by simp) hocc
      have hocc1 : acc1.occupied = acc.occupied + 1 := hoccA habse
      have hab1 : ∀ e', e' ∈ rest → e'.occupied → absent acc1 e'.key := by
        intro e' he' hocc'
        have hne : e'.key ≠ e.key := (hpe e' he' hocc hocc').symm
        rw [absent_iff_not_mapsTo]
        intro v hmt
        exact (absent_iff_not_mapsTo acc e'.key).mp
          (hab e' (List.mem_cons_of_mem e he') hocc') v ((hframe1 e'.key hne v).mp hmt)
      obtain ⟨acc', hgo, hInv', hlen', hocc', hchar⟩ :=
        ih acc1 hInv1 (by omega) (by rw [hlen1]; omega) hab1 hpw'
      refine ⟨acc', ?_, hInv', by rw [hlen', hlen1],
        by rw [hocc', hocc1]; omega, ?_⟩
      · intro fuel
        rw [extendGo, extendGoF, if_pos hocc, hins fuel]
        exact hgo fuel
      · intro k v
        rw [hchar k v]
        constructor
        · rintro (hm1 | hex)
          · by_cases hk : k = e.key
            · subst hk
              right
              exact ⟨e, by simp, hocc, rfl, (mapsTo_unique hash hInv1 hm1 hmt1).symm⟩
            · left
              exact (hframe1 k hk v).mp hm1
          · obtain ⟨e', he', h1, h2, h3⟩ := hex
            exact Or.inr ⟨e', List.mem_cons_of_mem e he', h1, h2, h3⟩
        · rintro (hm | hex)
          · have hk : k ≠ e.key := by
              intro h
              rw [h] at hm
              exact (absent_iff_not_mapsTo acc e.key).mp habse v hm
            left
            exact (hframe1 k hk v).mpr hm
          · obtain ⟨e', he', h1, h2, h3⟩ := hex
            rcases List.mem_cons.mp he' with rfl | he'r
            · left
              rw [← h2, ← h3]
              exact hmt1
            · right
              exact ⟨e', he'r, h1, h2, h3⟩
    · have hcnt : countOcc (e :: rest) = countOcc rest := by
        simp [countOcc, List.countP_cons, hocc]
      obtain ⟨acc', hgo, hInv', hlen', hocc', hchar⟩ :=
        ih acc hInv hlen (by omega) (fun e' he' => hab e' (List.mem_cons_of_mem e he'))
          hpw'
      refine ⟨acc', ?_, hInv', hlen', by omega, ?_⟩
      · intro fuel
        rw [extendGo, extendGoF, if_neg hocc]
        exact hgo fuel
      · intro k v
        rw [hchar k v]
        constructor
        · rintro (hm | hex)
          · exact Or.inl hm
          · obtain ⟨e', he', h1, h2, h3⟩ := hex
            exact Or.inr ⟨e', List.mem_cons_of_mem e he', h1, h2, h3⟩
        · rintro (hm | hex)
          · exact Or.inl hm
          · obtain ⟨e', he', h1, h2, h3⟩ := hex
            rcases List.mem_cons.mp he' with rfl | he'r
            · exact absurd h1 (by simpa using hocc)
            · exact Or.inr ⟨e', he'r, h1, h2, h3⟩

/-- Full specification of one `insert` on an invariant-satisfying table with
at least one slot: it succeeds, preserves the invariant, binds `k` to `v`,
leaves every other key unchanged, bumps the counter exactly for new keys, and
resizes to `2 * capacity + 1` exactly when a new key meets at-least-half
load. -/
theorem insert_spec {m : HashMap K V} (hInv : Inv hash m)
    (hlen : 0 < m.entries.length) (k : K) (v : V) :
    ∃ m', HashMap.insert hash m k v = some m' ∧ Inv hash m' ∧
      0 < m'.entries.length ∧ mapsTo m' k v ∧
      (∀ k', k' ≠ k → ∀ v', (mapsTo m' k' v' ↔ mapsTo m k' v')) ∧
      (absent m k → m'.occupied = m.occupied + 1) ∧
      (¬ absent m k → m'.occupied = m.occupied ∧
        m'.entries.length = m.entries.length) ∧
      (absent m k → ¬ (m.entries.length / 2 ≤ m.occupied) →
        m'.entries.length = m.entries.length) ∧
      (absent m k → m.entries.length / 2 ≤ m.occupied →
        m'.entries.length = 2 * m.entries.length + 1) := by
  by_cases habs : absent m k
  · by_cases hcheck : m.entries.length / 2 ≤ m.occupied
    · -- resize first, then place
      have hpw : List.Pairwise (fun a b : Entry K V =>
          a.occupied → b.occupied → a.key ≠ b.key) m.entries := by
        rw [List.pairwise_iff_getElem]
        intro i j hi hj hij ha' hb' hk
        have := hInv.2.2.1 i hi j hj
          (by rw [occB, entAt_eq_getElem hi]; exact ha')
          (by rw [occB, entAt_eq_getElem hj]; exact hb')
          (by rw [keyAt, keyAt, entAt_eq_getElem hi, entAt_eq_getElem hj]; exact hk)
        omega
      have hfInv : Inv hash (HashMap.withCapacity K V (m.entries.length * 2 + 1)) :=
        Inv_withCapacity hash _
      have hflen : 0 < (HashMap.withCapacity K V
          (m.entries.length * 2 + 1)).entries.length := by
        simp [HashMap.withCapacity]
      have hfbud : 2 * ((HashMap.withCapacity K V (m.entries.length * 2 + 1)).occupied
          + countOcc m.entries) ≤ (HashMap.withCapacity K V
            (m.entries.length * 2 + 1)).entries.length := by
        have h1 := hInv.1
        have h2 := hInv.2.1
        simp only [HashMap.withCapacity, List.length_replicate]
        omega
      obtain ⟨m1, hgo, hInv1, hlen1, hocc1, hchar1⟩ :=
        extendGoF_full hash m.entries (HashMap.withCapacity K V (m.entries.length * 2 + 1))
          hfInv hflen hfbud (fun e _ _ => absent_withCapacity _ _) hpw
      have hm1occ : m1.occupied = m.occupied := by
        rw [hocc1]
        simp only [HashMap.withCapacity]
        rw [← hInv.1]
        omega
      have hm1len : m1.entries.length = 2 * m.entries.length + 1 := by
        rw [hlen1]
        simp only [HashMap.withCapacity, List.length_replicate]
        ring
      have hm1maps : ∀ k' v', mapsTo m1 k' v' ↔ mapsTo m k' v' := by
        intro k' v'
        rw [hchar1 k' v']
        constructor
        · rintro (hf | hex)
          · exact absurd hf ((absent_iff_not_mapsTo _ k').mp
              (absent_withCapacity _ k') v')
          · exact (mapsTo_iff_exists_mem m k' v').mpr hex
        · intro hm
          exact Or.inr ((mapsTo_iff_exists_mem m k' v').mp hm)
      have habs1 : absent m1 k := by
        rw [absent_iff_not_mapsTo]
        intro v' h
        exact (absent_iff_not_mapsTo m k).mp habs v' ((hm1maps k v').mp h)
      have hbud1 : 2 * (m1.occupied + 1) ≤ m1.entries.length := by
        rw [hm1occ, hm1len]
        have := hInv.2.1
        omega
      obtain ⟨j, hj, hjfree, hplace, hInv', hlen', hocc', hmt', hframe'⟩ :=
        placeAt_spec hash hInv1 (by rw [hm1len]; omega) habs1 hbud1 v
      refine ⟨placeAt hash m1 k v, ?_, hInv', by rw [hlen', hm1len]; omega, hmt',
        ?_, ?_, ?_, ?_, ?_⟩
      · rw [HashMap.insert, insertF_eq, get_index_of_absent hash hlen habs,
          if_pos hcheck]
        show Option.map (fun m1 => placeAt hash m1 k v)
            (extendGoF (fun acc k' v' => insertF hash 0 acc k' v') m.entries
              (HashMap.withCapacity K V (m.entries.length * 2 + 1)))
          = some (placeAt hash m1 k v)
        rw [show extendGoF (fun acc k' v' => insertF hash 0 acc k' v') m.entries
              (HashMap.withCapacity K V (m.entries.length * 2 + 1)) = some m1
            from hgo 0]
        rfl
      · intro k' hk' v'
        exact (hframe' k' hk' v').trans (hm1maps k' v')
      · intro _
        rw [hocc', hm1occ]
      · intro hna
        exact absurd habs hna
      · intro _ hnc
        exact absurd hcheck hnc
      · intro _ _
        rw [hlen', hm1len]
    · -- new key below threshold
      have hbud : 2 * (m.occupied + 1) ≤ m.entries.length := by omega
      obtain ⟨m', hins, hInv', hlen', hmt', hframe', hoccA, hoccP⟩ :=
        insertF_step hash hInv hlen hbud k v
      exact ⟨m', hins 1, hInv', by rw [hlen']; omega, hmt', hframe', hoccA,
        fun hna => absurd habs hna, fun _ _ => hlen', fun _ hc => absurd hc hcheck⟩
  · -- present: in-place overwrite
    obtain ⟨v₀, hmt⟩ := (not_absent_iff m k).mp habs
    obtain ⟨i, hi, hoi, hki, hvi⟩ := hmt
    have hgi := get_index_of_slot hash hInv hlen hi hoi hki
    obtain ⟨hov, hInv', hlen', hocc', hmt', hframe', _, _⟩ :=
      overwriteAt_spec hash hInv hgi v
    refine ⟨overwriteAt m i v, ?_, hInv', by rw [hlen']; omega, hmt', hframe',
      fun hab => absurd hab habs, fun _ => ⟨hocc', hlen'⟩,
      fun hab _ => absurd hab habs, fun hab _ => absurd hab habs⟩
    rw [HashMap.insert, insertF_eq, hgi]

/-- A sequence of inserts of pairwise-distinct keys all absent from the
start table: all succeed, the counter grows by exactly the number of pairs,
every pair is bound afterwards and other keys are untouched. -/
theorem insertSeq_spec :
    ∀ (ps : List (K × V)) (m : HashMap K V), Inv hash m → 0 < m.entries.length →
      (∀ p, p ∈ ps → absent m p.1) →
      (ps.map Prod.fst).Nodup →
      ∃ m', insertSeq hash m ps = some m' ∧ Inv hash m' ∧
        0 < m'.entries.length ∧
        m'.occupied = m.occupied + ps.length ∧
        (∀ p, p ∈ ps → mapsTo m' p.1 p.2) ∧
        (∀ k v, (∀ p, p ∈ ps → p.1 ≠ k) → (mapsTo m' k v ↔ mapsTo m k v)) := by
  intro ps
  induction ps with
  | nil =>
    intro m h1 h2 _ _
    exact ⟨m, rfl, h1, h2, by simp, by simp, fun k v _ => Iff.rfl⟩
  | cons p rest ih =>
    intro m hInv hlen hab hnd
    obtain ⟨m1, hins, hInv1, hlen1, hmt1, hframe1, hoccA, hoccP, hlenN, hlenR⟩ :=
      insert_spec hash hInv hlen p.1 p.2
    have hocc1 : m1.occupied = m.occupied + 1 := hoccA (hab p (by simp))
    have hnd' : (rest.map Prod.fst).Nodup := (List.nodup_cons.mp (by simpa using hnd)).2
    have hp1 : p.1 ∉ rest.map Prod.fst := (List.nodup_cons.mp (by simpa using hnd)).1
    have hab1 : ∀ q, q ∈ rest → absent m1 q.1 := by
      intro q hq
      have hqne : q.1 ≠ p.1 := by
        intro h
        exact hp1 (h ▸ List.mem_map_of_mem Prod.fst hq)
      rw [absent_iff_not_mapsTo]
      intro v hv
      exact (absent_iff_not_mapsTo m q.1).mp (hab q (List.mem_cons_of_mem p hq)) v
        ((hframe1 q.1 hqne v).mp hv)
    obtain ⟨m', hseq, hInv', hlen', hocc', hmts, hframe⟩ := ih m1 hInv1 hlen1 hab1 hnd'
    refine ⟨m', ?_, hInv', hlen',
      by rw [hocc', hocc1]; simp only [List.length_cons]; omega, ?_, ?_⟩
    · rw [insertSeq, hins]
      exact hseq
    · intro q hq
      rcases List.mem_cons.mp hq with rfl | hqr
      · have hrest : ∀ pp, pp ∈ rest → pp.1 ≠ q.1 := by
          intro pp hpp h
          exact hp1 (h ▸ List.mem_map_of_mem Prod.fst hpp)
        exact (hframe q.1 q.2 hrest).mpr hmt1
      · exact hmts q hqr
    · intro k v hk
      have h1 : ∀ q, q ∈ rest → q.1 ≠ k := fun q hq => hk q (List.mem_cons_of_mem p hq)
      have h2 : p.1 ≠ k := hk p (by simp)
      rw [hframe k v h1]
      exact hframe1 k (Ne.symm h2) v

/-- Every table reachable through the public interface satisfies the
data-model invariants. -/
theorem reachable_inv {m : HashMap K V} (h : Reachable hash m) : Inv hash m := by
  induction h with
  | new => exact Inv_withCapacity hash 64
  | empty => exact Inv_empty hash
  | withCapacity c => exact Inv_withCapacity hash c
  | @insert m₀ m₁ k v hr hins ih =>
    by_cases hlen : 0 < m₀.entries.length
    · obtain ⟨m'', hins'', hInv'', _⟩ := insert_spec hash ih hlen k v
      rw [hins''] at hins
      injection hins with hins
      rw [← hins]
      exact hInv''
    · exfalso
      have : m₀.entries.length = 0 := by omega
      rw [HashMap.insert, insertF_len_zero hash this 1 k v] at hins
      exact absurd hins (by simp)
  | writeVal v hr hgi ih =>
    exact (overwriteAt_spec hash ih hgi v).2.1

end InsertStep

/-! ## The iterator -/

section Iterator

variable [Inhabited K] [Inhabited V] [DecidableEq K] (hash : K → Nat)

theorem nextGo_past {entries : List (Entry K V)} {i : Nat}
    (h : entries.length ≤ i) : nextGo entries i = none := by
  rw [nextGo, dif_neg (by omega)]

theorem nextGo_occ {entries : List (Entry K V)} {i : Nat}
    (h : i < entries.length) (ho : occB entries i) :
    nextGo entries i
      = some (((entAt entries i).key, (entAt entries i).value), i + 1) := by
  rw [nextGo, dif_pos h, if_pos (show (entAt entries i).occupied = true from ho)]

theorem nextGo_skip {entries : List (Entry K V)} {i : Nat}
    (h : i < entries.length) (hn : ¬ occB entries i) :
    nextGo entries i = nextGo entries (i + 1) := by
  rw [nextGo, dif_pos h, if_neg (show ¬ (entAt entries i).occupied = true from hn)]

theorem drainF_past {entries : List (Entry K V)} (fuel : Nat) {i : Nat}
    (h : entries.length ≤ i) : drainF fuel (⟨entries, i⟩ : HashMapIterator K V) = [] := by
  cases fuel with
  | zero => rw [drainF]
  | succ f =>
    rw [drainF, HashMapIterator.next]
    simp only [nextGo_past h, Option.map_none']

/-- Skipping an unoccupied slot does not consume drain output. -/
theorem drainF_skip {entries : List (Entry K V)} {i f : Nat}
    (hi : i < entries.length) (ho : ¬ occB entries i) :
    drainF (f + 1) (⟨entries, i⟩ : HashMapIterator K V)
      = drainF (f + 1) ⟨entries, i + 1⟩ := by
  conv_lhs => rw [drainF, HashMapIterator.next, nextGo_skip hi ho]
  conv_rhs => rw [drainF, HashMapIterator.next]

/-- Draining with enough fuel yields exactly the occupied bindings from the
current index onward, in slot order. -/
theorem drainF_eq_bindings_drop (entries : List (Entry K V)) :
    ∀ (n fuel i : Nat), entries.length + 1 - i ≤ n →
      entries.length + 1 - i ≤ fuel →
      drainF fuel (⟨entries, i⟩ : HashMapIterator K V) = bindingsOf (entries.drop i) := by
  intro n
  induction n with
  | zero =>
    intro fuel i h1 h2
    have hi : entries.length < i := by omega
    rw [List.drop_eq_nil_of_le (by omega), drainF_past fuel (by omega)]
    simp [bindingsOf]
  | succ n ih =>
    intro fuel i h1 h2
    by_cases hi : i < entries.length
    · cases fuel with
      | zero => omega
      | succ f =>
        have hAt : entAt entries i = entries[i] := entAt_eq_getElem hi
        by_cases ho : occB entries i
        · have hoE : entries[i].occupied = true := by
            rwa [occB, entAt_eq_getElem hi] at ho
          have hstep : bindingsOf (entries[i] :: entries.drop (i + 1))
              = (entries[i].key, entries[i].value) :: bindingsOf (entries.drop (i + 1)) := by
            rw [bindingsOf, bindingsOf, List.filter_cons, if_pos hoE, List.map_cons]
          rw [drainF, HashMapIterator.next]
          simp only [nextGo_occ hi ho, Option.map_some']
          rw [ih f (i + 1) (by omega) (by omega)]
          rw [List.drop_eq_getElem_cons hi, hstep, hAt]
        · have hoE : ¬ entries[i].occupied = true := by
            rwa [occB, entAt_eq_getElem hi] at ho
          have hstep : bindingsOf (entries[i] :: entries.drop (i + 1))
              = bindingsOf (entries.drop (i + 1)) := by
            rw [bindingsOf, bindingsOf, List.filter_cons, if_neg hoE]
          rw [drainF_skip hi ho]
          rw [ih (f + 1) (i + 1) (by omega) (by omega)]
          rw [List.drop_eq_getElem_cons hi, hstep]
    · rw [List.drop_eq_nil_of_le (by omega), drainF_past fuel (by omega)]
      simp [bindingsOf]

/-- Draining the fresh iterator of a table yields exactly its occupied
bindings in increasing slot order. -/
theorem drain_iter (m : HashMap K V) :
    drain (HashMap.iter m) = bindingsOf m.entries := by
  rw [HashMap.iter, drain]
  simp only
  rw [drainF_eq_bindings_drop m.entries (m.entries.length + 1) (m.entries.length + 1 - 0) 0
      (by omega) (by omega)]
  rw [List.drop_zero]

theorem bindingsOf_length (l : List (Entry K V)) :
    (bindingsOf l).length = countOcc l := by
  simp [bindingsOf, countOcc, List.countP_eq_length_filter]

theorem bindingsOf_mem {l : List (Entry K V)} {p : K × V} (h : p ∈ bindingsOf l) :
    ∃ e, e ∈ l ∧ e.occupied ∧ e.key = p.1 ∧ e.value = p.2 := by
  simp only [bindingsOf, List.mem_map, List.mem_filter] at h
  obtain ⟨e, ⟨he, hocc⟩, hp⟩ := h
  exact ⟨e, he, hocc, by rw [← hp], by rw [← hp]⟩

/-- The pairwise form of the distinct-keys invariant. -/
theorem pairwise_of_inv {m : HashMap K V} (hInv : Inv hash m) :
    List.Pairwise (fun a b : Entry K V =>
      a.occupied → b.occupied → a.key ≠ b.key) m.entries := by
  rw [List.pairwise_iff_getElem]
  intro i j hi hj hij ha' hb' hk
  have := hInv.2.2.1 i hi j hj
    (by rw [occB, entAt_eq_getElem hi]; exact ha')
    (by rw [occB, entAt_eq_getElem hj]; exact hb')
    (by rw [keyAt, keyAt, entAt_eq_getElem hi, entAt_eq_getElem hj]; exact hk)
  omega

theorem bindingsOf_keys_nodup {l : List (Entry K V)}
    (hpw : List.Pairwise (fun a b : Entry K V =>
      a.occupied → b.occupied → a.key ≠ b.key) l) :
    ((bindingsOf l).map Prod.fst).Nodup := by
  rw [bindingsOf, List.map_map]
  rw [List.Nodup, List.pairwise_map]
  have hflt := hpw.filter (fun e => e.occupied)
  refine List.Pairwise.imp_of_mem ?_ hflt
  intro a b ha hb hr
  have hoa : a.occupied := (List.mem_filter.mp ha).2
  have hob : b.occupied := (List.mem_filter.mp hb).2
  exact hr hoa hob

end Iterator

/-! ## Refinement of `get_index` against the spec's `locate` (claim C2) -/

section Locate

variable [Inhabited K] [Inhabited V] [DecidableEq K] (hash : K → Nat)

theorem get_index_eq_locateSpec {m : HashMap K V} (hlen : 0 < m.entries.length)
    (k : K) : HashMap.get_index hash m k = some (locateSpec hash m k) := by
  set len := m.entries.length with hlendef
  set start := hash k % len with hsdef
  have hs : start < len := Nat.mod_lt _ hlen
  rw [HashMap.get_index, rustMod, if_neg (by omega), locateSpec]
  simp only [← hlendef, ← hsdef]
  by_cases h : ∃ t, t < len ∧ stopHit m.entries k (probe len start t)
  · rw [dif_pos h]
    obtain ⟨ht0, hstop0⟩ := Nat.find_spec h
    have hmin : ∀ u, u < Nat.find h →
        occB m.entries (probe len start u) ∧
          keyAt m.entries (probe len start u) ≠ k := by
      intro u hu
      have hnot := Nat.find_min h hu
      rw [not_and_or] at hnot
      rcases hnot with hbad | hnostop
      · omega
      · rw [stopHit, not_or, not_not] at hnostop
        exact hnostop
    have hscan : getIndexGo m.entries k len start = probe len start (Nat.find h) := by
      refine getIndexGo_eq_of_stop m.entries k (Nat.find h) len start hs ht0 hmin ?_
      rw [stopHit] at hstop0
      exact hstop0
    rw [hscan]
    rfl
  · rw [dif_neg h]
    push_neg at h
    have hrun : ∀ u, u < len → occB m.entries (probe len start u) ∧
        keyAt m.entries (probe len start u) ≠ k := by
      intro u hu
      have := h u hu
      rw [stopHit, not_or, not_not] at this
      exact this
    have hscan : getIndexGo m.entries k len start = probe len start len :=
      getIndexGo_eq_of_nostop m.entries k len start hs hrun
    have hwrap : probe len start len = start := by
      rw [probe, Nat.add_mod_right, Nat.mod_eq_of_lt hs]
    rw [hscan, hwrap]
    have h0 := hrun 0 (by omega)
    rw [probe_zero hs] at h0
    rw [if_neg]
    rintro ⟨_, hkey⟩
    exact h0.2 hkey

end Locate

/-! ## The claims

The claim theorems about a generic table take the data-model invariants of
spec section 3 (`Inv`) as a hypothesis; `reachable_inv` shows they hold for
every table produced through the public interface. -/

/-- C1: for every key `k` and value `v`, and every table (satisfying the
data-model invariants) with at least one slot, `insert(k, v)` followed by
`get(&k)` yields `Some(v)`. -/
theorem claim_c1 {K V : Type} [Inhabited K] [Inhabited V] [DecidableEq K]
    (hash : K → Nat) (m : HashMap K V) (hInv : Inv hash m)
    (hlen : 0 < m.entries.length) (k : K) (v : V) :
    ∃ m', HashMap.insert hash m k v = some m' ∧
      HashMap.get hash m' k = some (some v) := by
  obtain ⟨m', hins, hInv', hlen', hmt', _⟩ := insert_spec hash hInv hlen k v
  exact ⟨m', hins, get_of_mapsTo hash hInv' hlen' hmt'⟩

theorem claim_c1_witness :
    Inv (fun n => n) (HashMap.withCapacity Nat Nat 3) ∧
    0 < (HashMap.withCapacity Nat Nat 3).entries.length ∧
    ∃ m', HashMap.insert (fun n => n) (HashMap.withCapacity Nat Nat 3) 1 10 = some m' ∧
      HashMap.get (fun n => n) m' 1 = some (some 10) :=
  ⟨by decide, by decide,
    claim_c1 (fun n => n) (HashMap.withCapacity Nat Nat 3) (by decide) (by decide) 1 10⟩

/-- C2: on every table with at least one slot, `get_index(&k)` equals the
spec's `locate`: start at `hash(k) mod slot count`, scan forward with
wraparound for up to slot-count steps, stop at the first unoccupied slot or
first occupied slot with key `k`, and return `Some` of that index exactly
when the stopping slot is occupied with key `k`, otherwise `None` (and no
panic occurs). -/
theorem claim_c2 {K V : Type} [Inhabited K] [Inhabited V] [DecidableEq K]
    (hash : K → Nat) (m : HashMap K V) (hlen : 0 < m.entries.length) (k : K) :
    HashMap.get_index hash m k = some (locateSpec hash m k) :=
  get_index_eq_locateSpec hash hlen k

theorem claim_c2_witness :
    0 < (⟨[⟨true, 2, 20⟩, ⟨true, 1, 10⟩, ⟨false, 0, 0⟩], 2⟩ :
      HashMap Nat Nat).entries.length ∧
    HashMap.get_index (fun n => n)
        (⟨[⟨true, 2, 20⟩, ⟨true, 1, 10⟩, ⟨false, 0, 0⟩], 2⟩ : HashMap Nat Nat) 1
      = some (locateSpec (fun n => n)
        (⟨[⟨true, 2, 20⟩, ⟨true, 1, 10⟩, ⟨false, 0, 0⟩], 2⟩ : HashMap Nat Nat) 1) :=
  ⟨by decide, claim_c2 (fun n => n)
    (⟨[⟨true, 2, 20⟩, ⟨true, 1, 10⟩, ⟨false, 0, 0⟩], 2⟩ : HashMap Nat Nat)
    (by decide) 1⟩

/-- C3: starting from a freshly constructed table (default `new()` =
`with_capacity(64)`, or explicit nonzero capacity), after any sequence of
insertions of `N` distinct keys, `len() = N` and `capacity() ≥ 2 N`; and
after each intermediate insert the occupied count never exceeds half the
slot count. -/
theorem claim_c3 {K V : Type} [Inhabited K] [Inhabited V] [DecidableEq K]
    (hash : K → Nat) (c : Nat) (hc : 0 < c) (ps : List (K × V))
    (hnd : (ps.map Prod.fst).Nodup) :
    HashMap.new K V = HashMap.withCapacity K V 64 ∧
    ∀ i, i ≤ ps.length →
      ∃ mi, insertSeq hash (HashMap.withCapacity K V c) (ps.take i) = some mi ∧
        HashMap.len mi = i ∧
        2 * i ≤ HashMap.capacity mi ∧
        2 * HashMap.len mi ≤ HashMap.capacity mi := by
  refine ⟨rfl, fun i hi => ?_⟩
  have hnd' : ((ps.take i).map Prod.fst).Nodup := by
    rw [List.map_take]
    exact hnd.sublist (List.take_sublist i (ps.map Prod.fst))
  have hab : ∀ p, p ∈ ps.take i → absent (HashMap.withCapacity K V c) p.1 :=
    fun p _ => absent_withCapacity c p.1
  have hlen0 : 0 < (HashMap.withCapacity K V c).entries.length := by
    simp [HashMap.withCapacity]
    omega
  obtain ⟨mi, hseq, hInvI, hlenI, hoccI, _, _⟩ :=
    insertSeq_spec hash (ps.take i) (HashMap.withCapacity K V c)
      (Inv_withCapacity hash c) hlen0 hab hnd'
  have hcount : (ps.take i).length = i := by
    rw [List.length_take]
    omega
  have hocc : mi.occupied = i := by
    rw [hoccI, hcount]
    simp [HashMap.withCapacity]
  refine ⟨mi, hseq, hocc, ?_, ?_⟩
  · have := hInvI.2.1
    rw [hocc] at this
    exact this
  · exact hInvI.2.1

theorem claim_c3_witness :
    0 < 1 ∧ (([(1, 10), (2, 20)] : List (Nat × Nat)).map Prod.fst).Nodup ∧
    (HashMap.new Nat Nat = HashMap.withCapacity Nat Nat 64 ∧
      ∀ i, i ≤ ([(1, 10), (2, 20)] : List (Nat × Nat)).length →
        ∃ mi, insertSeq (fun n => n) (HashMap.withCapacity Nat Nat 1)
            (([(1, 10), (2, 20)] : List (Nat × Nat)).take i) = some mi ∧
          HashMap.len mi = i ∧
          2 * i ≤ HashMap.capacity mi ∧
          2 * HashMap.len mi ≤ HashMap.capacity mi) :=
  ⟨by decide, by decide, claim_c3 (fun n => n) 1 (by decide) [(1, 10), (2, 20)] (by decide)⟩

/-- C4: a sequence of distinct-key insertions from a fresh table that
triggers at least one resize (the capacity changed) leaves every inserted
binding findable via `get` with its value; `extend` re-inserts every
occupied binding of the old table through the normal `insert` path into a
brand-new table of capacity `old * 2 + 1`; and an insert that takes the
resize branch ends with capacity exactly `2 * old + 1`. -/
theorem claim_c4 {K V : Type} [Inhabited K] [Inhabited V] [DecidableEq K]
    (hash : K → Nat) (c : Nat) (hc : 0 < c) (ps : List (K × V))
    (hnd : (ps.map Prod.fst).Nodup)
    (hgrow : (insertSeq hash (HashMap.withCapacity K V c) ps).map
      (fun m => m.entries.length) ≠ some c) :
    (∃ mf, insertSeq hash (HashMap.withCapacity K V c) ps = some mf ∧
      ∀ p, p ∈ ps → HashMap.get hash mf p.1 = some (some p.2)) ∧
    (∀ m : HashMap K V, HashMap.extend hash m
      = insertSeq hash (HashMap.withCapacity K V (m.entries.length * 2 + 1))
          (bindingsOf m.entries)) ∧
    (∀ (m : HashMap K V) (k : K) (v : V), Inv hash m → 0 < m.entries.length →
      absent m k → m.entries.length / 2 ≤ m.occupied →
      ∃ m', HashMap.insert hash m k v = some m' ∧
        m'.entries.length = 2 * m.entries.length + 1) := by
  refine ⟨?_, ?_, ?_⟩
  · have hab : ∀ p, p ∈ ps → absent (HashMap.withCapacity K V c) p.1 :=
      fun p _ => absent_withCapacity c p.1
    have hlen0 : 0 < (HashMap.withCapacity K V c).entries.length := by
      simp [HashMap.withCapacity]
      omega
    obtain ⟨mf, hseq, hInvF, hlenF, _, hmts, _⟩ :=
      insertSeq_spec hash ps (HashMap.withCapacity K V c)
        (Inv_withCapacity hash c) hlen0 hab hnd
    exact ⟨mf, hseq, fun p hp => get_of_mapsTo hash hInvF hlenF (hmts p hp)⟩
  · intro m
    have hbud : 2 * ((HashMap.withCapacity K V (m.entries.length * 2 + 1)).occupied
        + countOcc m.entries) ≤ (HashMap.withCapacity K V
          (m.entries.length * 2 + 1)).entries.length := by
      have := countOcc_le_length m.entries
      simp only [HashMap.withCapacity, List.length_replicate]
      omega
    obtain ⟨acc', hgo, hseq, _, _, _⟩ :=
      extendGoF_budget hash m.entries (HashMap.withCapacity K V (m.entries.length * 2 + 1))
        (Inv_withCapacity hash _) (by simp [HashMap.withCapacity]) hbud
    rw [HashMap.extend, hgo 0, hseq]
  · intro m k v hInv hlen habs hcheck
    obtain ⟨m', hins, _, _, _, _, _, _, _, hlenR⟩ := insert_spec hash hInv hlen k v
    exact ⟨m', hins, hlenR habs hcheck⟩

theorem claim_c4_witness :
    0 < 1 ∧ (([(1, 10)] : List (Nat × Nat)).map Prod.fst).Nodup ∧
    (insertSeq (fun n => n) (HashMap.withCapacity Nat Nat 1) [(1, 10)]).map
      (fun m => m.entries.length) ≠ some 1 ∧
    ((∃ mf, insertSeq (fun n => n) (HashMap.withCapacity Nat Nat 1) [(1, 10)] = some mf ∧
      ∀ p, p ∈ ([(1, 10)] : List (Nat × Nat)) →
        HashMap.get (fun n => n) mf p.1 = some (some p.2)) ∧
    (∀ m : HashMap Nat Nat, HashMap.extend (fun n => n) m
      = insertSeq (fun n => n) (HashMap.withCapacity Nat Nat (m.entries.length * 2 + 1))
          (bindingsOf m.entries)) ∧
    (∀ (m : HashMap Nat Nat) (k v : Nat), Inv (fun n => n) m → 0 < m.entries.length →
      absent m k → m.entries.length / 2 ≤ m.occupied →
      ∃ m', HashMap.insert (fun n => n) m k v = some m' ∧
        m'.entries.length = 2 * m.entries.length + 1)) :=
  ⟨by decide, by decide, by decide,
    claim_c4 (fun n => n) 1 (by decide) [(1, 10)] (by decide) (by decide)⟩

/-- C5: on every table (satisfying the data-model invariants) with at least
one slot, inserting `(k, v1)` then `(k, v2)` leaves `len()` and the slot
count unchanged by the second insert (an in-place update, not a
reinsertion), and `get(&k)` afterwards returns `Some(v2)`. -/
theorem claim_c5 {K V : Type} [Inhabited K] [Inhabited V] [DecidableEq K]
    (hash : K → Nat) (m : HashMap K V) (hInv : Inv hash m)
    (hlen : 0 < m.entries.length) (k : K) (v1 v2 : V) :
    ∃ m1 m2, HashMap.insert hash m k v1 = some m1 ∧
      HashMap.insert hash m1 k v2 = some m2 ∧
      HashMap.len m2 = HashMap.len m1 ∧
      m2.entries.length = m1.entries.length ∧
      HashMap.get hash m2 k = some (some v2) := by
  obtain ⟨m1, hins1, hInv1, hlen1, hmt1, _⟩ := insert_spec hash hInv hlen k v1
  obtain ⟨m2, hins2, hInv2, hlen2, hmt2, _, _, hoccP, _⟩ :=
    insert_spec hash hInv1 hlen1 k v2
  have hpres : ¬ absent m1 k := by
    rw [not_absent_iff]
    exact ⟨v1, hmt1⟩
  obtain ⟨hocc, hlenEq⟩ := hoccP hpres
  exact ⟨m1, m2, hins1, hins2, hocc, hlenEq, get_of_mapsTo hash hInv2 hlen2 hmt2⟩

theorem claim_c5_witness :
    Inv (fun n => n) (HashMap.withCapacity Nat Nat 5) ∧
    0 < (HashMap.withCapacity Nat Nat 5).entries.length ∧
    ∃ m1 m2, HashMap.insert (fun n => n) (HashMap.withCapacity Nat Nat 5) 2 10 = some m1 ∧
      HashMap.insert (fun n => n) m1 2 99 = some m2 ∧
      HashMap.len m2 = HashMap.len m1 ∧
      m2.entries.length = m1.entries.length ∧
      HashMap.get (fun n => n) m2 2 = some (some 99) :=
  ⟨by decide, by decide,
    claim_c5 (fun n => n) (HashMap.withCapacity Nat Nat 5) (by decide) (by decide) 2 10 99⟩

/-- C6: for every byte sequence of a `String` or `&str` key, the hash equals
the djb2 iteration `h := 5381;  h := (h << 5) + h + b` over the bytes,
computed with wrap-on-overflow (modulo `2 ^ 64`) unsigned machine-width
arithmetic at every step. -/
theorem claim_c6 : ∀ bytes : List Nat,
    stringHash bytes = djb2Spec bytes ∧ strHash bytes = djb2Spec bytes := by
  have hstep : stringHashStep = djb2SpecStep :=
    funext fun h => funext fun b => stringHashStep_eq h b
  have hstep' : strHashStep = djb2SpecStep :=
    funext fun h => funext fun b => strHashStep_eq h b
  intro bytes
  constructor
  · rw [stringHash, djb2Spec, hstep]
  · rw [strHash, djb2Spec, hstep']

theorem claim_c6_witness :
    stringHash [104, 101, 106] = djb2Spec [104, 101, 106] ∧
      strHash [104, 101, 106] = djb2Spec [104, 101, 106] :=
  claim_c6 [104, 101, 106]

/-- C7: in every table reachable from a constructor (`new`, `empty`, or
`with_capacity`) by any sequence of `insert`, `get`, `get_mut` (including
value writes through its borrow) and `iter` calls, the stored occupied
counter equals exactly the number of entries whose occupied flag is true. -/
theorem claim_c7 {K V : Type} [Inhabited K] [Inhabited V] [DecidableEq K]
    (hash : K → Nat) (m : HashMap K V) (h : Reachable hash m) :
    m.occupied = countOcc m.entries :=
  (reachable_inv hash h).1

theorem claim_c7_witness :
    (⟨[⟨false, 0, 0⟩, ⟨true, 1, 10⟩, ⟨false, 0, 0⟩], 1⟩ : HashMap Nat Nat).occupied
      = countOcc (⟨[⟨false, 0, 0⟩, ⟨true, 1, 10⟩, ⟨false, 0, 0⟩], 1⟩ :
          HashMap Nat Nat).entries :=
  claim_c7 (fun n => n) _
    (Reachable.insert 1 10 (Reachable.withCapacity 3) (by decide))

/-- C8: a table constructed with zero slots (`empty()`, or
`with_capacity(0)`, which builds the same table) makes every key-hashing
operation — `get_index`, `get`, `get_mut`, `insert` at any recursion depth —
reach `hash(k) % 0` and abort (`none`, the modelled panic) rather than
report absence (`some none`); no operation validates or repairs the zero
capacity. -/
theorem claim_c8 : ∀ (K V : Type) (_ : Inhabited K) (_ : Inhabited V)
    (_ : DecidableEq K) (hash : K → Nat),
    HashMap.withCapacity K V 0 = HashMap.empty K V ∧
    (∀ k : K, HashMap.get_index hash (HashMap.empty K V) k = none) ∧
    (∀ k : K, HashMap.get hash (HashMap.empty K V) k = none) ∧
    (∀ k : K, HashMap.get_mut hash (HashMap.empty K V) k = none) ∧
    (∀ (k : K) (v : V) (fuel : Nat),
      insertF hash fuel (HashMap.empty K V) k v = none) := by
  intro K V _ _ _ hash
  have hlen : (HashMap.empty K V).entries.length = 0 := rfl
  refine ⟨rfl, fun k => get_index_len_zero hash hlen k, ?_, ?_, ?_⟩
  · intro k
    rw [HashMap.get, get_index_len_zero hash hlen k]
    rfl
  · intro k
    rw [HashMap.get_mut, get_index_len_zero hash hlen k]
    rfl
  · intro k v fuel
    exact insertF_len_zero hash hlen fuel k v

theorem claim_c8_witness :
    HashMap.withCapacity Nat Nat 0 = HashMap.empty Nat Nat ∧
    (∀ k : Nat, HashMap.get_index (fun n => n) (HashMap.empty Nat Nat) k = none) ∧
    (∀ k : Nat, HashMap.get (fun n => n) (HashMap.empty Nat Nat) k = none) ∧
    (∀ k : Nat, HashMap.get_mut (fun n => n) (HashMap.empty Nat Nat) k = none) ∧
    (∀ (k v fuel : Nat),
      insertF (fun n => n) fuel (HashMap.empty Nat Nat) k v = none) :=
  claim_c8 Nat Nat ⟨0⟩ ⟨0⟩ instDecidableEqNat (fun n => n)

/-- C9: draining the iterator of a table (satisfying the data-model
invariants, not mutated during the scan) yields exactly the occupied
bindings in increasing slot-index order, skipping unoccupied slots; that is
exactly `len()` pairs, with pairwise distinct keys (no duplicates), each
value matching what `get` returns for its key. -/
theorem claim_c9 {K V : Type} [Inhabited K] [Inhabited V] [DecidableEq K]
    (hash : K → Nat) (m : HashMap K V) (hInv : Inv hash m)
    (hlen : 0 < m.entries.length) :
    drain (HashMap.iter m) = bindingsOf m.entries ∧
    (drain (HashMap.iter m)).length = HashMap.len m ∧
    ((drain (HashMap.iter m)).map Prod.fst).Nodup ∧
    (∀ p, p ∈ drain (HashMap.iter m) →
      HashMap.get hash m p.1 = some (some p.2)) := by
  have hd := drain_iter (K := K) (V := V) m
  refine ⟨hd, ?_, ?_, ?_⟩
  · rw [hd, bindingsOf_length]
    exact hInv.1.symm
  · rw [hd]
    exact bindingsOf_keys_nodup (pairwise_of_inv hash hInv)
  · intro p hp
    rw [hd] at hp
    obtain ⟨e, he, hocc, hk, hv⟩ := bindingsOf_mem hp
    exact get_of_mapsTo hash hInv hlen
      ((mapsTo_iff_exists_mem m p.1 p.2).mpr ⟨e, he, hocc, hk, hv⟩)

theorem claim_c9_witness :
    Inv (fun n => n)
      (⟨[⟨true, 0, 5⟩, ⟨false, 0, 0⟩, ⟨true, 2, 7⟩, ⟨false, 0, 0⟩], 2⟩ :
        HashMap Nat Nat) ∧
    0 < (⟨[⟨true, 0, 5⟩, ⟨false, 0, 0⟩, ⟨true, 2, 7⟩, ⟨false, 0, 0⟩], 2⟩ :
        HashMap Nat Nat).entries.length ∧
    (drain (HashMap.iter
        (⟨[⟨true, 0, 5⟩, ⟨false, 0, 0⟩, ⟨true, 2, 7⟩, ⟨false, 0, 0⟩], 2⟩ :
          HashMap Nat Nat)) = bindingsOf
      (⟨[⟨true, 0, 5⟩, ⟨false, 0, 0⟩, ⟨true, 2, 7⟩, ⟨false, 0, 0⟩], 2⟩ :
          HashMap Nat Nat).entries ∧
    (drain (HashMap.iter
        (⟨[⟨true, 0, 5⟩, ⟨false, 0, 0⟩, ⟨true, 2, 7⟩, ⟨false, 0, 0⟩], 2⟩ :
          HashMap Nat Nat))).length = HashMap.len
      (⟨[⟨true, 0, 5⟩, ⟨false, 0, 0⟩, ⟨true, 2, 7⟩, ⟨false, 0, 0⟩], 2⟩ :
          HashMap Nat Nat) ∧
    ((drain (HashMap.iter
        (⟨[⟨true, 0, 5⟩, ⟨false, 0, 0⟩, ⟨true, 2, 7⟩, ⟨false, 0, 0⟩], 2⟩ :
          HashMap Nat Nat))).map Prod.fst).Nodup ∧
    (∀ p, p ∈ drain (HashMap.iter
        (⟨[⟨true, 0, 5⟩, ⟨false, 0, 0⟩, ⟨true, 2, 7⟩, ⟨false, 0, 0⟩], 2⟩ :
          HashMap Nat Nat)) →
      HashMap.get (fun n => n)
        (⟨[⟨true, 0, 5⟩, ⟨false, 0, 0⟩, ⟨true, 2, 7⟩, ⟨false, 0, 0⟩], 2⟩ :
          HashMap Nat Nat) p.1 = some (some p.2))) :=
  ⟨by decide, by decide,
    claim_c9 (fun n => n)
      (⟨[⟨true, 0, 5⟩, ⟨false, 0, 0⟩, ⟨true, 2, 7⟩, ⟨false, 0, 0⟩], 2⟩ :
        HashMap Nat Nat) (by decide) (by decide)⟩

/-- C10: when `insert` is called with a key already stored at slot `i` (on a
table satisfying the data-model invariants), only that slot's value changes:
the result is the same table with slot `i` set to `(occupied, same key, new
value)`, the slot count and occupied counter unchanged, every other slot
untouched, and no resize triggered. -/
theorem claim_c10 {K V : Type} [Inhabited K] [Inhabited V] [DecidableEq K]
    (hash : K → Nat) (m : HashMap K V) (hInv : Inv hash m) (k : K) (i : Nat)
    (hi : i < m.entries.length) (hoi : occB m.entries i)
    (hki : keyAt m.entries i = k) (v : V) :
    HashMap.insert hash m k v
        = some ⟨m.entries.set i ⟨true, k, v⟩, m.occupied⟩ ∧
      (m.entries.set i ⟨true, k, v⟩).length = m.entries.length ∧
      (∀ j, j ≠ i → entAt (m.entries.set i ⟨true, k, v⟩) j = entAt m.entries j) ∧
      entAt (m.entries.set i ⟨true, k, v⟩) i = ⟨true, k, v⟩ ∧
      keyAt (m.entries.set i ⟨true, k, v⟩) i = keyAt m.entries i := by
  have hlen : 0 < m.entries.length := by omega
  have hgi := get_index_of_slot hash hInv hlen hi hoi hki
  obtain ⟨hov, _, _, _, _, _, _, _⟩ := overwriteAt_spec hash hInv hgi v
  refine ⟨?_, List.length_set m.entries i _, ?_, entAt_set_self hi _, ?_⟩
  · rw [HashMap.insert, insertF_eq, hgi]
    exact congrArg some hov
  · intro j hj
    exact entAt_set_ne (fun he => hj he.symm) _
  · rw [keyAt, keyAt, entAt_set_self hi]
    exact hki.symm

theorem claim_c10_witness :
    Inv (fun n => n)
      (⟨[⟨true, 0, 5⟩, ⟨false, 0, 0⟩, ⟨true, 2, 7⟩, ⟨false, 0, 0⟩], 2⟩ :
        HashMap Nat Nat) ∧
    2 < (⟨[⟨true, 0, 5⟩, ⟨false, 0, 0⟩, ⟨true, 2, 7⟩, ⟨false, 0, 0⟩], 2⟩ :
        HashMap Nat Nat).entries.length ∧
    occB (⟨[⟨true, 0, 5⟩, ⟨false, 0, 0⟩, ⟨true, 2, 7⟩, ⟨false, 0, 0⟩], 2⟩ :
        HashMap Nat Nat).entries 2 ∧
    keyAt (⟨[⟨true, 0, 5⟩, ⟨false, 0, 0⟩, ⟨true, 2, 7⟩, ⟨false, 0, 0⟩], 2⟩ :
        HashMap Nat Nat).entries 2 = 2 ∧
    (HashMap.insert (fun n => n)
        (⟨[⟨true, 0, 5⟩, ⟨false, 0, 0⟩, ⟨true, 2, 7⟩, ⟨false, 0, 0⟩], 2⟩ :
          HashMap Nat Nat) 2 9
      = some ⟨(⟨[⟨true, 0, 5⟩, ⟨false, 0, 0⟩, ⟨true, 2, 7⟩, ⟨false, 0, 0⟩], 2⟩ :
          HashMap Nat Nat).entries.set 2 ⟨true, 2, 9⟩, 2⟩ ∧
    ((⟨[⟨true, 0, 5⟩, ⟨false, 0, 0⟩, ⟨true, 2, 7⟩, ⟨false, 0, 0⟩], 2⟩ :
        HashMap Nat Nat).entries.set 2 ⟨true, 2, 9⟩).length
      = (⟨[⟨true, 0, 5⟩, ⟨false, 0, 0⟩, ⟨true, 2, 7⟩, ⟨false, 0, 0⟩], 2⟩ :
        HashMap Nat Nat).entries.length ∧
    (∀ j, j ≠ 2 → entAt ((⟨[⟨true, 0, 5⟩, ⟨false, 0, 0⟩, ⟨true, 2, 7⟩, ⟨false, 0, 0⟩], 2⟩ :
        HashMap Nat Nat).entries.set 2 ⟨true, 2, 9⟩) j
      = entAt (⟨[⟨true, 0, 5⟩, ⟨false, 0, 0⟩, ⟨true, 2, 7⟩, ⟨false, 0, 0⟩], 2⟩ :
        HashMap Nat Nat).entries j) ∧
    entAt ((⟨[⟨true, 0, 5⟩, ⟨false, 0, 0⟩, ⟨true, 2, 7⟩, ⟨false, 0, 0⟩], 2⟩ :
        HashMap Nat Nat).entries.set 2 ⟨true, 2, 9⟩) 2 = ⟨true, 2, 9⟩ ∧
    keyAt ((⟨[⟨true, 0, 5⟩, ⟨false, 0, 0⟩, ⟨true, 2, 7⟩, ⟨false, 0, 0⟩], 2⟩ :
        HashMap Nat Nat).entries.set 2 ⟨true, 2, 9⟩) 2
      = keyAt (⟨[⟨true, 0, 5⟩, ⟨false, 0, 0⟩, ⟨true, 2, 7⟩, ⟨false, 0, 0⟩], 2⟩ :
        HashMap Nat Nat).entries 2) :=
  ⟨by decide, by decide, by decide, by decide,
    claim_c10 (fun n => n)
      (⟨[⟨true, 0, 5⟩, ⟨false, 0, 0⟩, ⟨true, 2, 7⟩, ⟨false, 0, 0⟩], 2⟩ :
        HashMap Nat Nat) (by decide) 2 2 (by decide) (by decide) (by decide) 9⟩

end RustyMap
